import Mathlib

/-!
Verification development for the `fund-management-api` people-scraper scripts
(`scripts/scrape_kku_people.py` — the Thai variant — and
`scripts/scrape_kku_people_en.py` — the EN variant).

The URL machinery of both scripts is built on Python's `urllib.parse`
(`urlparse`, `urljoin`) together with string operations (`strip`, `rstrip`,
`split`, `startswith`, regular-expression search).  The first sections embed
that machinery over `List Char`; later sections embed the scraper functions
themselves (`_to_abs_url`, `_norm_abs`, `_strip_lang_prefix`,
`_is_profile_abs_url`, `_fallback_extract_from_html`, `get_profile_links`,
`clean_text`, `parse_education`, the stabilization loops, and the
orchestration in `main`), and the final section states and proves theorems
about the specification claims.
-/

set_option maxHeartbeats 1000000

namespace KKUScrape

/-- Character lists: the representation of Python `str` values. -/
abbrev Chars := List Char

/-- Characters removed by Python's `str.strip()` with no argument
(whitespace; the ASCII cases plus the common Unicode line/space separators). -/
def pyWhitespace (c : Char) : Bool :=
  c = ' ' ∨ c = '\t' ∨ c = '\n' ∨ c = '\r' ∨ c = '\x0b' ∨ c = '\x0c' ∨
  c = '\x1c' ∨ c = '\x1d' ∨ c = '\x1e' ∨ c = '\x1f' ∨ c = '\x85' ∨ c = '\xa0' ∨
  c = ' ' ∨ c = ' ' ∨ c = '　'

/-- Python `s.lstrip()`. -/
def lstrip (l : Chars) : Chars := l.dropWhile pyWhitespace

/-- Python `s.rstrip()`. -/
def rstrip (l : Chars) : Chars := (l.reverse.dropWhile pyWhitespace).reverse

/-- Python `s.strip()`. -/
def pyStrip (l : Chars) : Chars := rstrip (lstrip l)

/-- Python `s.rstrip("/")` — used by `_norm_abs`. -/
def rstripSlash (l : Chars) : Chars := (l.reverse.dropWhile (· = '/')).reverse

/-- Python `"sub" in s` (substring containment test). -/
def substrB (needle hay : Chars) : Bool :=
  (List.range (hay.length + 1)).any (fun i => needle.isPrefixOf (hay.drop i))

/-- Python `s.lower()` (ASCII case folding; the scripts only lower-case
Latin letters, Thai text is unaffected, as in CPython). -/
def lowerC (l : Chars) : Chars := l.map Char.toLower

/-- Python `s.split(sep)` for a single-character separator `sep`. -/
def splitOnChar (sep : Char) : Chars → List Chars
  | [] => [[]]
  | c :: t =>
    if c = sep then [] :: splitOnChar sep t
    else
      match splitOnChar sep t with
      | h :: r => (c :: h) :: r
      | [] => [[c]]

/-- Split a list at the first occurrence of `ch`: returns the part before it
and, when `ch` occurs, the part after it. -/
def splitOnce (ch : Char) (l : Chars) : Chars × Option Chars :=
  let a := l.takeWhile (· ≠ ch)
  match l.dropWhile (· ≠ ch) with
  | [] => (a, none)
  | _ :: t => (a, some t)

/-! ### Model of `urllib.parse` (CPython) -/

/-- The bytes CPython's `urlsplit` removes from a URL before parsing
(`_UNSAFE_URL_BYTES_TO_REMOVE = ["\t", "\r", "\n"]`). -/
def unsafeRemoved (l : Chars) : Chars :=
  l.filter (fun c => !(c = '\t' ∨ c = '\r' ∨ c = '\n'))

/-- CPython `scheme_chars`: ASCII letters, digits, `+`, `-`, `.`. -/
def schemeChar (c : Char) : Bool :=
  c.isAlpha ∨ c.isDigit ∨ c = '+' ∨ c = '-' ∨ c = '.'

/-- Scan a candidate scheme: succeeds at the first `:` if every character
before it is a scheme character. -/
def splitSchemeAux : Chars → Chars → Option (Chars × Chars)
  | _, [] => none
  | acc, c :: rest =>
    if c = ':' then some (acc.reverse, rest)
    else if schemeChar c then splitSchemeAux (c :: acc) rest
    else none

/-- CPython `urlsplit` scheme recognition: the URL has a scheme iff its first
character is an ASCII letter and every character up to the first `:` is a
scheme character; the recognized scheme is lower-cased. -/
def splitScheme (l : Chars) : Chars × Chars :=
  if (l.head?.map Char.isAlpha).getD false then
    match splitSchemeAux [] l with
    | some (s, rest) => (s.map Char.toLower, rest)
    | none => ([], l)
  else ([], l)

/-- A character that terminates the netloc portion (`/`, `?` or `#`). -/
def netlocStop (c : Char) : Bool := c = '/' ∨ c = '?' ∨ c = '#'

/-- The five components returned by `urlsplit`. -/
structure UrlParts where
  scheme : Chars
  netloc : Chars
  path : Chars
  query : Chars
  fragment : Chars
deriving Repr, DecidableEq

/-- `urlsplit` step 1: the scheme of the cleaned URL. -/
def usScheme (url : Chars) : Chars := (splitScheme (unsafeRemoved url)).1

/-- `urlsplit` step 1: what remains after the scheme. -/
def usAfterScheme (url : Chars) : Chars := (splitScheme (unsafeRemoved url)).2

/-- `urlsplit` step 2: is a `//netloc` present? -/
def usHasNet (url : Chars) : Bool := (usAfterScheme url).take 2 = ['/', '/']

/-- `urlsplit` step 2: the netloc (up to the first `/`, `?` or `#`). -/
def usNetloc (url : Chars) : Chars :=
  if usHasNet url then ((usAfterScheme url).drop 2).takeWhile (fun c => !netlocStop c)
  else []

/-- `urlsplit` step 2: what remains after the netloc. -/
def usRest1 (url : Chars) : Chars :=
  if usHasNet url then ((usAfterScheme url).drop 2).dropWhile (fun c => !netlocStop c)
  else usAfterScheme url

/-- `urlsplit` step 3: the part before the fragment (first `#`). -/
def usRest2 (url : Chars) : Chars := (usRest1 url).takeWhile (· ≠ '#')

/-- `urlsplit` step 4: the path — before the query (first `?`). -/
def usPath (url : Chars) : Chars := (usRest2 url).takeWhile (· ≠ '?')

/-- Model of CPython `urllib.parse.urlsplit` (with `allow_fragments=True`):
remove unsafe bytes, take the scheme, then the `//netloc` if present, then
split off the fragment at the first `#` and the query at the first `?`
(the query is what follows the first `?`, the fragment what follows the
first `#`). -/
def urlsplitC (url : Chars) : UrlParts :=
  ⟨usScheme url, usNetloc url, usPath url,
   ((usRest2 url).dropWhile (· ≠ '?')).drop 1,
   ((usRest1 url).dropWhile (· ≠ '#')).drop 1⟩

/-- The schemes for which `urlparse` separates `;parameters`
(CPython `uses_params`; the empty scheme is included). -/
def usesParams (s : Chars) : Bool :=
  s = [] ∨ s = "ftp".data ∨ s = "hdl".data ∨ s = "prospero".data ∨
  s = "http".data ∨ s = "imap".data ∨ s = "https".data ∨ s = "shttp".data ∨
  s = "rtsp".data ∨ s = "rtspu".data ∨ s = "sip".data ∨ s = "sips".data ∨
  s = "mms".data ∨ s = "sftp".data ∨ s = "tel".data

/-- The index of the last `/` of `p` (`p.rfind("/")`; 0 when absent). -/
def lastSlashIdx (p : Chars) : Nat :=
  match p.reverse.findIdx? (· = '/') with
  | some ri => p.length - 1 - ri
  | none => 0

/-- CPython `_splitparams`: split `;params` off the last path segment
(searching for `;` from the last `/` when the path contains one). -/
def splitParamsC (p : Chars) : Chars × Chars :=
  if '/' ∈ p then
    match ((p.drop (lastSlashIdx p)).findIdx? (· = ';')).map (· + lastSlashIdx p) with
    | none => (p, [])
    | some i => (p.take i, p.drop (i + 1))
  else
    match p.findIdx? (· = ';') with
    | none => (p, [])
    | some i => (p.take i, p.drop (i + 1))

/-- Model of CPython `urlparse` (for a URL with no default scheme): `urlsplit`
plus the params separation.  Returns the parts (with the params-free path)
and the params. -/
def urlparseC (url : Chars) : UrlParts × Chars :=
  if usesParams (urlsplitC url).scheme ∧ ';' ∈ (urlsplitC url).path then
    ({ urlsplitC url with path := (splitParamsC (urlsplitC url).path).1 },
     (splitParamsC (urlsplitC url).path).2)
  else (urlsplitC url, [])

/-- CPython `urlunsplit`, netloc/path portion: `//netloc` is emitted when a
netloc is present (or the path looks protocol-relative), and a separating
`/` is inserted when the path does not start with one. -/
def urlunsplitBody (netloc url : Chars) : Chars :=
  if netloc ≠ [] ∨ (url ≠ [] ∧ url.take 2 = "//".data) then
    "//".data ++ netloc ++ (if url ≠ [] ∧ url.take 1 ≠ ['/'] then '/' :: url else url)
  else url

/-- CPython `urlunsplit`. -/
def urlunsplitC (scheme netloc url query fragment : Chars) : Chars :=
  (if scheme ≠ [] then scheme ++ ':' :: urlunsplitBody netloc url
   else urlunsplitBody netloc url) ++
  (if query ≠ [] then '?' :: query else []) ++
  (if fragment ≠ [] then '#' :: fragment else [])

/-- CPython `urlunparse`. -/
def urlunparseC (scheme netloc path params query fragment : Chars) : Chars :=
  urlunsplitC scheme netloc (if params ≠ [] then path ++ ';' :: params else path)
    query fragment

/-- `sep.join(xs)` (Python `str.join`). -/
def joinSep (sep : Chars) : List Chars → Chars
  | [] => []
  | [x] => x
  | x :: y :: t => x ++ sep ++ joinSep sep (y :: t)

/-- RFC 3986 dot-segment removal as implemented in CPython `urljoin`
(`resolved_path` loop over `segments`, stack with a tolerated pop on empty). -/
def resolveAux : List Chars → List Chars → List Chars
  | acc, [] => acc.reverse
  | acc, s :: t =>
    if s = "..".data then resolveAux (acc.drop 1) t
    else if s = ".".data then resolveAux acc t
    else resolveAux (s :: acc) t

/-- Dot-segment resolution including the trailing-`/` restoration when the
last segment is `.` or `..`. -/
def resolveDots (segs : List Chars) : List Chars :=
  let r := resolveAux [] segs
  if segs.getLast? = some ".".data ∨ segs.getLast? = some "..".data then
    r ++ [[]]
  else r

/-- The base site origin both scripts use (`BASE`). -/
def BASE : Chars := "https://computing.kku.ac.th".data

/-- The host of `BASE`. -/
def BASEHOST : Chars := "computing.kku.ac.th".data

/-- `urljoin` step: the scheme of the reference, defaulted to the base
scheme `https` when absent. -/
def ujScheme (url : Chars) : Chars :=
  if (urlsplitC url).scheme = [] then "https".data else (urlsplitC url).scheme

/-- `urljoin` step: does `urlparse(url, bscheme)` separate `;params`? -/
def ujHasParams (url : Chars) : Prop :=
  usesParams (ujScheme url) ∧ ';' ∈ (urlsplitC url).path

instance (url : Chars) : Decidable (ujHasParams url) := by
  unfold ujHasParams
  infer_instance

/-- `urljoin` step: the params-free path of the reference. -/
def ujPath0 (url : Chars) : Chars :=
  if ujHasParams url then (splitParamsC (urlsplitC url).path).1
  else (urlsplitC url).path

/-- `urljoin` step: the `;params` of the reference. -/
def ujParams (url : Chars) : Chars :=
  if ujHasParams url then (splitParamsC (urlsplitC url).path).2 else []

/-- `urljoin` step: the segment list fed to dot-segment resolution
(the relative branch merges with the base path's segments `[""]` and drops
empty middle segments, per `segments[1:-1] = filter(None, segments[1:-1])`). -/
def ujSegments (url : Chars) : List Chars :=
  if (ujPath0 url).take 1 = ['/'] then splitOnChar '/' (ujPath0 url)
  else
    [[]] ++ ((splitOnChar '/' (ujPath0 url)).dropLast.filter (· ≠ [])) ++
      ((splitOnChar '/' (ujPath0 url)).getLast?.toList)

/-- `urljoin` step: `'/'.join(resolved_path)`. -/
def ujResolvedPath (url : Chars) : Chars :=
  joinSep ['/'] (resolveDots (ujSegments url))

/-- Model of CPython `urljoin(BASE, url)` with the scripts' fixed base
`https://computing.kku.ac.th` (base path, params, query, fragment all empty).
Mirrors CPython: parse `url` with default scheme `https`, bail out on a
foreign scheme, reuse the base netloc when the reference has none, resolve
dot segments when a path is present. -/
def urljoinBase (url : Chars) : Chars :=
  if url = [] then BASE
  else if ujScheme url ≠ "https".data then url
  else if (urlsplitC url).netloc ≠ [] then
    urlunparseC (ujScheme url) (urlsplitC url).netloc (ujPath0 url) (ujParams url)
      (urlsplitC url).query (urlsplitC url).fragment
  else if ujPath0 url = [] ∧ ujParams url = [] then
    urlunparseC (ujScheme url) BASEHOST [] [] (urlsplitC url).query (urlsplitC url).fragment
  else
    urlunparseC (ujScheme url) BASEHOST
      (if ujResolvedPath url = [] then ['/'] else ujResolvedPath url)
      (ujParams url) (urlsplitC url).query (urlsplitC url).fragment

/-! ### URL helpers of the scraper scripts -/

/-- `_to_abs_url` (identical in both variants): empty stays empty; otherwise
strip, and resolve strings starting with `/` against `BASE`. -/
def toAbsUrl (href : Chars) : Chars :=
  if href = [] then []
  else
    let href := pyStrip href
    if href.take 1 = ['/'] then urljoinBase href else href

/-- The rebuild step shared by `_norm_abs`:
`f"{u.scheme}://{u.netloc}{u.path}".rstrip("/")` after `urlparse`. -/
def normCore (z : Chars) : Chars :=
  rstripSlash ((urlparseC z).1.scheme ++ "://".data ++
    (urlparseC z).1.netloc ++ (urlparseC z).1.path)

/-- `_norm_abs` (identical in both variants). -/
def normAbs (url : Chars) : Chars :=
  if url = [] then []
  else normCore (if url.take 4 = "http".data then url else toAbsUrl url)

/-- The extensions of `STATIC_EXT`
(`\.(?:css|js|png|jpe?g|gif|svg|webp|woff2?|ttf|ico|pdf)(?:\?|#|$)`, case
insensitive), with the optional groups expanded. -/
def STATIC_EXTS : List Chars :=
  ["css", "js", "png", "jpg", "jpeg", "gif", "svg", "webp",
   "woff", "woff2", "ttf", "ico", "pdf"].map String.data

/-- Does `STATIC_EXT` match starting at offset `i` of `p` with extension `e`:
a literal `.`, the extension (case-insensitively), then `?`, `#` or the end. -/
def extAt (p : Chars) (e : Chars) (i : Nat) : Bool :=
  let t := lowerC (p.drop i)
  (('.' :: e).isPrefixOf t) &&
  (match t.drop (e.length + 1) with
   | [] => true
   | c :: _ => decide (c = '?' ∨ c = '#'))

/-- `STATIC_EXT.search(path)`. -/
def staticExtSearch (p : Chars) : Bool :=
  (List.range p.length).any (fun i => STATIC_EXTS.any (fun e => extAt p e i))

/-- A character of the class `[A-Za-z0-9_.\-ก-๙]` of `ALLOWED_SEGMENT_RE`. -/
def allowedSegChar (c : Char) : Bool :=
  ('A' ≤ c ∧ c ≤ 'Z') ∨ ('a' ≤ c ∧ c ≤ 'z') ∨ ('0' ≤ c ∧ c ≤ '9') ∨
  c = '_' ∨ c = '.' ∨ c = '-' ∨ ('ก' ≤ c ∧ c ≤ '๙')

/-- `ALLOWED_SEGMENT_RE.match(seg)`: `^[A-Za-z0-9_.\-ก-๙]+$` — a non-empty
run of allowed characters spanning the string (Python's `$` also accepts a
single trailing newline). -/
def allowedSegMatch (s : Chars) : Bool :=
  (s ≠ [] ∧ s.all allowedSegChar) ∨
  (s.getLast? = some '\n' ∧ s.dropLast ≠ [] ∧ s.dropLast.all allowedSegChar)

/-- The non-empty segments of a path (`[s for s in path.split("/") if s]`). -/
def pathSegs (p : Chars) : List Chars := (splitOnChar '/' p).filter (· ≠ [])

/-- `_strip_lang_prefix` (EN variant): for each of `/en`, `/th` in order,
an exact match becomes `/` and a `prefix + "/"` match is stripped. -/
def stripLangPrefix (p : Chars) : Chars :=
  if p = "/en".data then "/".data
  else if ("/en/".data).isPrefixOf p then p.drop 3
  else if p = "/th".data then "/".data
  else if ("/th/".data).isPrefixOf p then p.drop 3
  else p

/-- The path component the predicates inspect: `urlparse(abs_url).path or ""`. -/
def parsedPath (absUrl : Chars) : Chars := (urlparseC absUrl).1.path

/-- `_is_profile_abs_url` of the EN variant
(`scrape_kku_people_en.py`, lines 172–185). -/
def isProfileAbsUrlEn (absUrl : Chars) : Bool :=
  if absUrl = [] ∨ !(BASE.isPrefixOf absUrl) then false
  else
    let path := parsedPath absUrl
    if path = [] ∨ path = "/".data then false
    else if staticExtSearch path then false
    else
      match pathSegs (stripLangPrefix path) with
      | [seg] => ('.' ∈ seg) ∧ allowedSegMatch seg
      | _ => false

/-- `_is_profile_abs_url` of the Thai variant
(`scrape_kku_people.py`, lines 170–185): language-prefixed paths are
rejected outright instead of being stripped. -/
def isProfileAbsUrlTh (absUrl : Chars) : Bool :=
  if absUrl = [] ∨ !(BASE.isPrefixOf absUrl) then false
  else
    let path := parsedPath absUrl
    if path = [] ∨ path = "/".data then false
    else if ("/en/".data).isPrefixOf path ∨ ("/th/".data).isPrefixOf path then false
    else if staticExtSearch path then false
    else
      match pathSegs path with
      | [seg] => ('.' ∈ seg) ∧ allowedSegMatch seg
      | _ => false

/-! ### Spec-side URL classification predicates (claim C1) -/

/-- The ProfileURL acceptance predicate exactly as the claim states it:
absolute and same-origin with the base site (`https` scheme, host
`computing.kku.ac.th`), exactly one non-empty path segment after stripping an
optional `/en` or `/th` prefix, that segment contains a dot, the path does
not end in a static-asset extension, and the path is not a language root. -/
def profileURLClaim (absUrl : Chars) : Bool :=
  let u := (urlparseC absUrl).1
  (u.scheme = "https".data) && (u.netloc = BASEHOST) &&
  (let segs := pathSegs (stripLangPrefix u.path)
   decide (segs.length = 1) && segs.all (fun seg => decide ('.' ∈ seg))) &&
  (!staticExtSearch u.path) &&
  (!decide (u.path = "/en".data ∨ u.path = "/th".data))

/-- Declarative form of the EN variant's actual acceptance condition: the
URL string extends `BASE`, its parsed path is neither empty nor `/`, the
path does not match the static-extension pattern, and after stripping an
optional language prefix it has exactly one non-empty segment which contains
a dot and consists only of characters in `[A-Za-z0-9_.\-ก-๙]`. -/
def profileEnSpec (absUrl : Chars) : Bool :=
  BASE.isPrefixOf absUrl &&
  (let path := parsedPath absUrl
   !decide (path = []) && !decide (path = "/".data) &&
   !staticExtSearch path &&
   (let segs := pathSegs (stripLangPrefix path)
    decide (segs.length = 1) &&
    segs.all (fun seg => decide (('.' ∈ seg) ∧ allowedSegMatch seg))))

/-- Declarative form of the Thai variant's actual acceptance condition:
like `profileEnSpec` but any path starting with `/en/` or `/th/` is rejected
and no language prefix is stripped. -/
def profileThSpec (absUrl : Chars) : Bool :=
  BASE.isPrefixOf absUrl &&
  (let path := parsedPath absUrl
   !decide (path = []) && !decide (path = "/".data) &&
   !(("/en/".data).isPrefixOf path ∨ ("/th/".data).isPrefixOf path) &&
   !staticExtSearch path &&
   (let segs := pathSegs path
    decide (segs.length = 1) &&
    segs.all (fun seg => decide (('.' ∈ seg) ∧ allowedSegMatch seg))))

/-- The EN variant's `_is_profile_abs_url` coincides with its declarative
characterization. -/
theorem profileEn_eq (url : Chars) : isProfileAbsUrlEn url = profileEnSpec url := by
  unfold isProfileAbsUrlEn profileEnSpec
  by_cases hb : BASE.isPrefixOf url = true
  case neg =>
    rw [Bool.not_eq_true] at hb
    simp [hb]
  case pos =>
    have hne : ¬(url = []) := by
      intro h; subst h; simp [BASE] at hb
    rw [if_neg (by simp [hb, hne])]
    simp only [hb, Bool.true_and]
    by_cases hp0 : parsedPath url = []
    · simp [hp0, pathSegs, stripLangPrefix, splitOnChar]
    by_cases hp1 : parsedPath url = "/".data
    · simp [hp0, hp1, pathSegs, stripLangPrefix, splitOnChar]
    rw [if_neg (by tauto)]
    simp only [hp0, hp1, decide_eq_true_eq, decide_eq_false hp0, decide_eq_false hp1,
      Bool.not_false, Bool.true_and]
    cases hst : staticExtSearch (parsedPath url) with
    | true => simp
    | false =>
      simp only [Bool.not_false, Bool.true_and]
      cases hs : pathSegs (stripLangPrefix (parsedPath url)) with
      | nil => simp
      | cons a t =>
        cases t with
        | nil => simp
        | cons b t2 => simp

/-- The Thai variant's `_is_profile_abs_url` coincides with its declarative
characterization. -/
theorem profileTh_eq (url : Chars) : isProfileAbsUrlTh url = profileThSpec url := by
  unfold isProfileAbsUrlTh profileThSpec
  by_cases hb : BASE.isPrefixOf url = true
  case neg =>
    rw [Bool.not_eq_true] at hb
    simp [hb]
  case pos =>
    have hne : ¬(url = []) := by
      intro h; subst h; simp [BASE] at hb
    rw [if_neg (by simp [hb, hne])]
    simp only [hb, Bool.true_and]
    by_cases hp0 : parsedPath url = []
    · simp [hp0, pathSegs, splitOnChar]
    by_cases hp1 : parsedPath url = "/".data
    · simp [hp0, hp1, pathSegs, splitOnChar]
    rw [if_neg (by tauto)]
    simp only [hp0, hp1, decide_eq_true_eq, decide_eq_false hp0, decide_eq_false hp1,
      Bool.not_false, Bool.true_and]
    cases he : ("/en/".data).isPrefixOf (parsedPath url) with
    | true => rw [if_pos (by simp [he])]; simp [he]
    | false =>
    cases ht : ("/th/".data).isPrefixOf (parsedPath url) with
    | true => rw [if_pos (by simp [ht])]; simp [he, ht]
    | false =>
      rw [if_neg (by simp [he, ht])]
      simp only [he, ht, or_self, decide_False, Bool.not_false, Bool.true_and, Bool.false_or]
      cases hst : staticExtSearch (parsedPath url) with
      | true => simp
      | false =>
        simp only [Bool.not_false, Bool.true_and]
        cases hs : pathSegs (parsedPath url) with
        | nil => simp
        | cons a t =>
          cases t with
          | nil => simp
          | cons b t2 => simp

/-- **C1** — counterexample to the claim as stated.  For the candidate URL
`https://computing.kku.ac.th/a.b!` every condition of the claimed
characterization holds (absolute, same-origin, one dot-containing segment,
not a static asset, not a language root), yet both variants of the
classification predicate reject it: the code additionally requires the
segment to match `ALLOWED_SEGMENT_RE` (`^[A-Za-z0-9_.\-ก-๙]+$`), which `!`
fails. -/
theorem claim_C1_counterexample :
    profileURLClaim "https://computing.kku.ac.th/a.b!".data = true ∧
    isProfileAbsUrlEn "https://computing.kku.ac.th/a.b!".data = false ∧
    isProfileAbsUrlTh "https://computing.kku.ac.th/a.b!".data = false := by
  refine ⟨by decide, by decide, by decide⟩

/-- **C1** (amended).  The EN variant's ProfileURL predicate accepts a
candidate URL iff the URL string extends the base-origin string, its parsed
path is non-empty and not `/`, the path does not match the static-asset
extension pattern, and after stripping an optional `/en`/`/th` prefix the
path has exactly one non-empty segment that contains a dot and consists only
of characters in `[A-Za-z0-9_.\-ก-๙]`.  The Thai variant is the same except
that paths starting with `/en/` or `/th/` are rejected outright rather than
stripped.  (Relative to the original claim: same-origin is approximated by a
string-prefix test on the base URL, and the extra segment-character-set
restriction applies.) -/
theorem claim_C1 :
    (∀ url : Chars, isProfileAbsUrlEn url = profileEnSpec url) ∧
    (∀ url : Chars, isProfileAbsUrlTh url = profileThSpec url) :=
  ⟨profileEn_eq, profileTh_eq⟩

/-! ### Properties of `rstrip("/")` -/

theorem rstripSlash_append (a b : Chars) :
    rstripSlash (a ++ b) =
      if rstripSlash b = [] then rstripSlash a else a ++ rstripSlash b := by
  unfold rstripSlash
  rw [List.reverse_append, List.dropWhile_append]
  by_cases h : (b.reverse.dropWhile (· = '/')) = []
  · simp [h]
  · simp only [List.isEmpty_iff, h, if_false]
    rw [if_neg (by simpa [List.reverse_eq_nil_iff] using h), List.reverse_append,
      List.reverse_reverse]

theorem rstripSlash_eq_nil_iff (l : Chars) :
    rstripSlash l = [] ↔ ∀ c ∈ l, c = '/' := by
  unfold rstripSlash
  rw [List.reverse_eq_nil_iff, List.dropWhile_eq_nil_iff]
  constructor
  · intro h c hc
    simpa using h c (by simpa using hc)
  · intro h c hc
    simpa using h c (by simpa using hc)

theorem rstripSlash_of_no_slash (l : Chars) (h : '/' ∉ l) : rstripSlash l = l := by
  unfold rstripSlash
  cases hr : l.reverse with
  | nil =>
    have : l = [] := by simpa [List.reverse_eq_nil_iff] using hr
    simp [this]
  | cons c t =>
    have hc : c ∈ l := by rw [← List.mem_reverse, hr]; exact List.mem_cons_self c t
    have hne : ¬(c = '/') := fun he => h (he ▸ hc)
    rw [List.dropWhile_cons, if_neg (by simpa using hne), ← hr, List.reverse_reverse]

theorem rstripSlash_idem (l : Chars) : rstripSlash (rstripSlash l) = rstripSlash l := by
  unfold rstripSlash
  rw [List.reverse_reverse, List.dropWhile_idempotent]

theorem rstripSlash_pref (l : Chars) : rstripSlash l <+: l := by
  unfold rstripSlash
  have h := List.dropWhile_suffix (l := l.reverse) (· = '/')
  have := List.reverse_prefix.mpr h
  simpa using this

theorem rstripSlash_sub (l : Chars) (c : Char) (h : c ∈ rstripSlash l) : c ∈ l :=
  (rstripSlash_pref l).sublist.subset h

/-! ### Character-level lemmas -/

theorem char_le_iff_toNat (a b : Char) : a ≤ b ↔ a.toNat ≤ b.toNat := by
  simp [Char.le_def, UInt32.le_def, BitVec.le_def, Char.toNat, UInt32.toNat]

theorem char_ofNat_toNat_shift (c : Char) (h : 65 ≤ c.toNat ∧ c.toNat ≤ 90) :
    (Char.ofNat (c.toNat + 32)).toNat = c.toNat + 32 := by
  have hv : (c.toNat + 32).isValidChar := by left; omega
  rw [Char.ofNat, dif_pos hv]
  simp [Char.ofNatAux, Char.toNat, BitVec.toNat_ofNatLt]
  rfl

theorem toLower_dichotomy (c : Char) :
    c.toLower = c ∨ (65 ≤ c.toNat ∧ c.toNat ≤ 90 ∧ c.toLower.toNat = c.toNat + 32) := by
  unfold Char.toLower
  by_cases h : c.toNat ≥ 65 ∧ c.toNat ≤ 90
  · right
    exact ⟨h.1, h.2, by rw [if_pos h]; exact char_ofNat_toNat_shift c h⟩
  · left; rw [if_neg h]

theorem isLower_of_toNat (x : Char) (h1 : 97 ≤ x.toNat) (h2 : x.toNat ≤ 122) :
    x.isLower = true := by
  simp only [Char.isLower, decide_eq_true_eq, Bool.and_eq_true]
  constructor <;>
    simp [Char.le_def, UInt32.le_def, BitVec.le_def, Char.toNat, UInt32.toNat] at * <;> omega

theorem isAlpha_of_band (x : Char) (h1 : 97 ≤ x.toNat) (h2 : x.toNat ≤ 122) :
    x.isAlpha = true := by
  simp [Char.isAlpha, isLower_of_toNat x h1 h2]

theorem toLower_isAlpha (c : Char) (h : c.isAlpha = true) : c.toLower.isAlpha = true := by
  rcases toLower_dichotomy c with hc | ⟨h1, h2, h3⟩
  · rwa [hc]
  · exact isAlpha_of_band _ (by omega) (by omega)

theorem toLower_schemeChar (c : Char) (h : schemeChar c = true) :
    schemeChar c.toLower = true := by
  rcases toLower_dichotomy c with hc | ⟨h1, h2, h3⟩
  · rwa [hc]
  · have : c.toLower.isAlpha = true := isAlpha_of_band _ (by omega) (by omega)
    simp [schemeChar, this]

theorem toLower_fix_of_not_upper (c : Char) (h : ¬(65 ≤ c.toNat ∧ c.toNat ≤ 90)) :
    c.toLower = c := by
  unfold Char.toLower
  rw [if_neg h]

theorem toLower_idem (c : Char) : c.toLower.toLower = c.toLower := by
  rcases toLower_dichotomy c with hc | ⟨h1, h2, h3⟩
  · rw [hc, hc]
  · exact toLower_fix_of_not_upper _ (by omega)

theorem schemeChar_excl (c : Char) (h : schemeChar c = true) :
    c ≠ ':' ∧ c ≠ '/' ∧ c ≠ '?' ∧ c ≠ '#' ∧ c ≠ ';' ∧ c ≠ '\t' ∧ c ≠ '\r' ∧ c ≠ '\n' := by
  refine ⟨?_, ?_, ?_, ?_, ?_, ?_, ?_, ?_⟩ <;>
    (intro he; subst he; exact absurd h (by decide))


/-! ### Scheme-splitting lemmas -/

theorem splitSchemeAux_append (s t acc : Chars) (hs : ∀ c ∈ s, schemeChar c = true) :
    splitSchemeAux acc (s ++ ':' :: t) = some (acc.reverse ++ s, t) := by
  induction s generalizing acc with
  | nil => simp [splitSchemeAux]
  | cons c cs ih =>
    have hc := hs c (List.mem_cons_self _ _)
    have hcc : ¬(c = ':') := (schemeChar_excl c hc).1
    simp only [List.cons_append, splitSchemeAux, if_neg hcc, hc, if_true]
    simpa using ih (c :: acc) (fun x hx => hs x (List.mem_cons_of_mem _ hx))

theorem splitScheme_append (c : Char) (cs t : Chars)
    (ha : c.isAlpha = true) (hs : ∀ x ∈ c :: cs, schemeChar x = true) :
    splitScheme ((c :: cs) ++ ':' :: t) = (lowerC (c :: cs), t) := by
  unfold splitScheme
  rw [if_pos (by simp [ha])]
  have h2 := splitSchemeAux_append (c :: cs) t [] hs
  simp only [List.reverse_nil, List.nil_append] at h2
  rw [h2]
  simp [lowerC]

theorem splitSchemeAux_spec (l : Chars) : ∀ acc,
    (splitSchemeAux acc l = none) ∨
    (∃ s0 rest, l = s0 ++ ':' :: rest ∧ (∀ c ∈ s0, schemeChar c = true) ∧
      splitSchemeAux acc l = some (acc.reverse ++ s0, rest)) := by
  induction l with
  | nil => intro acc; left; rfl
  | cons c t ih =>
    intro acc
    by_cases hc : c = ':'
    · right
      refine ⟨[], t, by simp [hc], by simp, ?_⟩
      subst hc
      simp [splitSchemeAux]
    · by_cases hsc : schemeChar c = true
      · rcases ih (c :: acc) with h | ⟨s0, rest, he, hchars, hres⟩
        · left
          simp [splitSchemeAux, hc, hsc, h]
        · right
          refine ⟨c :: s0, rest, by simp [he], ?_, ?_⟩
          · intro x hx
            rcases List.mem_cons.mp hx with hx | hx
            · subst hx; exact hsc
            · exact hchars x hx
          · simp only [splitSchemeAux, if_neg hc, hsc, if_true, hres]
            simp
      · left
        simp [splitSchemeAux, hc, hsc]

theorem splitScheme_spec (l : Chars) :
    (splitScheme l = ([], l)) ∨
    (∃ s0 rest, l = s0 ++ ':' :: rest ∧ s0 ≠ [] ∧ (∀ c ∈ s0, schemeChar c = true) ∧
      (∃ a as, s0 = a :: as ∧ a.isAlpha = true) ∧ splitScheme l = (lowerC s0, rest)) := by
  by_cases ha : ((l.head?.map Char.isAlpha).getD false) = true
  · rcases splitSchemeAux_spec l [] with h | ⟨s0, rest, he, hchars, hres⟩
    · left
      unfold splitScheme
      rw [if_pos ha, h]
    · have hs0 : s0 ≠ [] := by
        intro h0
        subst h0
        simp only [List.nil_append] at he
        subst he
        simp at ha
      right
      refine ⟨s0, rest, he, hs0, hchars, ?_, ?_⟩
      · cases s0 with
        | nil => exact absurd rfl hs0
        | cons a as =>
          refine ⟨a, as, rfl, ?_⟩
          subst he
          simpa using ha
      · unfold splitScheme
        rw [if_pos ha, hres]
        simp [lowerC]
  · left
    unfold splitScheme
    rw [if_neg ha]

/-! ### Facts about the `urlsplit` components -/

theorem mem_takeWhile_sub {p : Char → Bool} {l : Chars} {c : Char}
    (h : c ∈ l.takeWhile p) : c ∈ l :=
  (List.takeWhile_prefix p).sublist.subset h

theorem mem_dropWhile_sub {p : Char → Bool} {l : Chars} {c : Char}
    (h : c ∈ l.dropWhile p) : c ∈ l :=
  (List.dropWhile_suffix p).sublist.subset h

theorem head_dropWhile_false (p : Char → Bool) (l : Chars) (a : Char) (t : Chars)
    (h : l.dropWhile p = a :: t) : p a = false := by
  induction l with
  | nil => simp at h
  | cons c cs ih =>
    rw [List.dropWhile_cons] at h
    by_cases hc : p c = true
    · rw [if_pos hc] at h; exact ih h
    · rw [if_neg hc] at h
      cases h
      simpa using hc

theorem unsafeRemoved_sub {l : Chars} {c : Char} (h : c ∈ unsafeRemoved l) : c ∈ l :=
  List.mem_of_mem_filter h

theorem unsafeRemoved_safe {l : Chars} {c : Char} (h : c ∈ unsafeRemoved l) :
    ¬(c = '\t' ∨ c = '\r' ∨ c = '\n') := by
  have := List.of_mem_filter h
  simpa using this

theorem unsafeRemoved_eq_self {l : Chars} (h : ∀ c ∈ l, ¬(c = '\t' ∨ c = '\r' ∨ c = '\n')) :
    unsafeRemoved l = l := by
  apply List.filter_eq_self.mpr
  intro a ha
  simpa using h a ha

theorem usScheme_facts (z : Chars) :
    usScheme z = [] ∨
    (usScheme z ≠ [] ∧ (∀ c ∈ usScheme z, schemeChar c = true) ∧
      lowerC (usScheme z) = usScheme z ∧
      (∃ a as, usScheme z = a :: as ∧ a.isAlpha = true)) := by
  unfold usScheme
  rcases splitScheme_spec (unsafeRemoved z) with h |
    ⟨s0, rest, he, hs0, hchars, ⟨a, as, ha, halpha⟩, hres⟩
  · left; rw [h]
  · right
    rw [hres]
    refine ⟨by simp [lowerC, hs0], ?_, ?_, ?_⟩
    · intro c hc
      simp only [lowerC, List.mem_map] at hc
      rcases hc with ⟨x, hx, hxc⟩
      subst hxc
      exact toLower_schemeChar x (hchars x hx)
    · show lowerC (lowerC s0) = lowerC s0
      simp only [lowerC, List.map_map]
      exact List.map_congr_left (fun x _ => toLower_idem x)
    · subst ha
      exact ⟨a.toLower, lowerC as, by simp [lowerC], toLower_isAlpha a halpha⟩

theorem usAfterScheme_sub (z : Chars) : ∀ c ∈ usAfterScheme z, c ∈ unsafeRemoved z := by
  unfold usAfterScheme
  rcases splitScheme_spec (unsafeRemoved z) with h | ⟨s0, rest, he, _, _, _, hres⟩
  · rw [h]; exact fun c hc => hc
  · rw [hres]
    intro c hc
    rw [he]
    exact List.mem_append.mpr (Or.inr (List.mem_cons_of_mem _ hc))

theorem usNetloc_stop (z : Chars) : ∀ c ∈ usNetloc z, netlocStop c = false := by
  unfold usNetloc
  intro c hc
  by_cases hn : usHasNet z = true
  · rw [if_pos hn] at hc
    have := List.mem_takeWhile_imp hc
    simpa using this
  · rw [if_neg hn] at hc
    simp at hc

theorem usNetloc_sub (z : Chars) : ∀ c ∈ usNetloc z, c ∈ unsafeRemoved z := by
  unfold usNetloc
  intro c hc
  by_cases hn : usHasNet z = true
  · rw [if_pos hn] at hc
    exact usAfterScheme_sub z c (List.mem_of_mem_drop (mem_takeWhile_sub hc))
  · rw [if_neg hn] at hc
    simp at hc

theorem usRest1_sub (z : Chars) : ∀ c ∈ usRest1 z, c ∈ unsafeRemoved z := by
  unfold usRest1
  intro c hc
  by_cases hn : usHasNet z = true
  · rw [if_pos hn] at hc
    exact usAfterScheme_sub z c (List.mem_of_mem_drop (mem_dropWhile_sub hc))
  · rw [if_neg hn] at hc
    exact usAfterScheme_sub z c hc

theorem usPath_no_query (z : Chars) : '?' ∉ usPath z := by
  intro h
  have := List.mem_takeWhile_imp h
  simp at this

theorem usPath_no_frag (z : Chars) : '#' ∉ usPath z := by
  intro h
  have h2 : '#' ∈ usRest2 z := mem_takeWhile_sub h
  have := List.mem_takeWhile_imp h2
  simp at this

theorem usPath_sub (z : Chars) : ∀ c ∈ usPath z, c ∈ unsafeRemoved z :=
  fun c hc => usRest1_sub z c (mem_takeWhile_sub (mem_takeWhile_sub hc))

theorem splitParamsC_fst_sub (p : Chars) : ∀ c ∈ (splitParamsC p).1, c ∈ p := by
  unfold splitParamsC
  intro c hc
  by_cases hs : '/' ∈ p
  · rw [if_pos hs] at hc
    rcases hm : ((p.drop (lastSlashIdx p)).findIdx? (· = ';')).map (· + lastSlashIdx p) with _ | i
    · rw [hm] at hc; exact hc
    · rw [hm] at hc
      exact List.mem_of_mem_take hc
  · rw [if_neg hs] at hc
    rcases hm : p.findIdx? (· = ';') with _ | i
    · rw [hm] at hc; exact hc
    · rw [hm] at hc
      exact List.mem_of_mem_take hc

theorem parsedPath_sub (z : Chars) : ∀ c ∈ parsedPath z, c ∈ usPath z := by
  unfold parsedPath urlparseC
  intro c hc
  by_cases h : usesParams (urlsplitC z).scheme = true ∧ ';' ∈ (urlsplitC z).path
  · rw [if_pos h] at hc
    exact splitParamsC_fst_sub _ c hc
  · rw [if_neg h] at hc
    exact hc

theorem urlparseC_scheme (z : Chars) : (urlparseC z).1.scheme = usScheme z := by
  unfold urlparseC
  by_cases h : usesParams (urlsplitC z).scheme = true ∧ ';' ∈ (urlsplitC z).path
  · rw [if_pos h]; rfl
  · rw [if_neg h]; rfl

theorem urlparseC_netloc (z : Chars) : (urlparseC z).1.netloc = usNetloc z := by
  unfold urlparseC
  by_cases h : usesParams (urlsplitC z).scheme = true ∧ ';' ∈ (urlsplitC z).path
  · rw [if_pos h]; rfl
  · rw [if_neg h]; rfl

theorem urlparseC_path_noSemi (z : Chars) (h : ';' ∉ usPath z) :
    parsedPath z = usPath z := by
  unfold parsedPath urlparseC
  rw [if_neg (fun hcon => h hcon.2)]
  rfl

/-! ### The rebuild fixed-point theorem -/

theorem normCore_rebuild (s n p : Chars)
    (hs_chars : ∀ c ∈ s, schemeChar c = true)
    (hs_low : lowerC s = s)
    (hs_head : ∃ a as, s = a :: as ∧ a.isAlpha = true)
    (hn : ∀ c ∈ n, netlocStop c = false)
    (hn_safe : ∀ c ∈ n, ¬(c = '\t' ∨ c = '\r' ∨ c = '\n'))
    (hp_q : '?' ∉ p) (hp_f : '#' ∉ p) (hp_semi : ';' ∉ p)
    (hp_safe : ∀ c ∈ p, ¬(c = '\t' ∨ c = '\r' ∨ c = '\n')) :
    normCore (rstripSlash (s ++ "://".data ++ n ++ p)) =
      rstripSlash (s ++ "://".data ++ n ++ p) := by
  obtain ⟨a, as, hsa, halpha⟩ := hs_head
  have hcol : "://".data = [':', '/', '/'] := rfl
  have hs_safe : ∀ c ∈ s, ¬(c = '\t' ∨ c = '\r' ∨ c = '\n') := by
    intro c hc
    have h := schemeChar_excl c (hs_chars c hc)
    rintro (rfl | rfl | rfl)
    · exact h.2.2.2.2.2.1 rfl
    · exact h.2.2.2.2.2.2.1 rfl
    · exact h.2.2.2.2.2.2.2 rfl
  have hs_noslash : '/' ∉ s := fun hc => (schemeChar_excl _ (hs_chars _ hc)).2.1 rfl
  have hn_noslash : '/' ∉ n := by
    intro hc
    have := hn _ hc
    simp [netlocStop] at this
  by_cases hpr : rstripSlash p = []
  case neg =>
    have hw : rstripSlash (s ++ "://".data ++ n ++ p) =
        (s ++ "://".data ++ n) ++ rstripSlash p := by
      rw [rstripSlash_append, if_neg hpr]
    rw [hw]
    have hpr_sub : ∀ c ∈ rstripSlash p, c ∈ p := rstripSlash_sub p
    have hshape : (s ++ "://".data ++ n) ++ rstripSlash p =
        (a :: as) ++ ':' :: ('/' :: '/' :: (n ++ rstripSlash p)) := by
      rw [hsa, hcol]; simp
    have hclean : unsafeRemoved ((s ++ "://".data ++ n) ++ rstripSlash p) =
        (s ++ "://".data ++ n) ++ rstripSlash p := by
      apply unsafeRemoved_eq_self
      intro c hc
      rcases List.mem_append.mp hc with hc | hc
      · rcases List.mem_append.mp hc with hc | hc
        · rcases List.mem_append.mp hc with hc | hc
          · exact hs_safe c hc
          · rw [hcol] at hc
            rintro (rfl | rfl | rfl) <;> simp at hc
        · exact hn_safe c hc
      · exact hp_safe c (hpr_sub c hc)
    have hsch : splitScheme ((s ++ "://".data ++ n) ++ rstripSlash p) =
        (s, '/' :: '/' :: (n ++ rstripSlash p)) := by
      rw [hshape, splitScheme_append a as _ halpha (by rw [← hsa]; exact hs_chars), ← hsa, hs_low]
    set w := (s ++ "://".data ++ n) ++ rstripSlash p with hw_def
    have hS : usScheme w = s := by unfold usScheme; rw [hclean, hsch]
    have hAfter : usAfterScheme w = '/' :: '/' :: (n ++ rstripSlash p) := by
      unfold usAfterScheme; rw [hclean, hsch]
    have hHas : usHasNet w = true := by unfold usHasNet; rw [hAfter]; rfl
    have hNet : usNetloc w = (n ++ rstripSlash p).takeWhile (fun c => !netlocStop c) := by
      unfold usNetloc; rw [if_pos hHas, hAfter]; rfl
    have hR1 : usRest1 w = (n ++ rstripSlash p).dropWhile (fun c => !netlocStop c) := by
      unfold usRest1; rw [if_pos hHas, hAfter]; rfl
    have hnp_facts : ∀ c ∈ n ++ rstripSlash p, ¬(c = '#') ∧ ¬(c = '?') := by
      intro c hc
      rcases List.mem_append.mp hc with hc | hc
      · have h2 := hn _ hc
        simp [netlocStop] at h2
        refine ⟨fun he => ?_, fun he => ?_⟩
        · exact h2.2.2 (by rw [he])
        · exact h2.2.1 (by rw [he])
      · exact ⟨fun he => hp_f (he ▸ hpr_sub c hc), fun he => hp_q (he ▸ hpr_sub c hc)⟩
    have hR2 : usRest2 w = usRest1 w := by
      unfold usRest2
      apply List.takeWhile_eq_self_iff.mpr
      intro x hx
      have hxm : x ∈ n ++ rstripSlash p := by rw [hR1] at hx; exact mem_dropWhile_sub hx
      simpa using (hnp_facts x hxm).1
    have hP : usPath w = usRest1 w := by
      unfold usPath
      rw [hR2]
      apply List.takeWhile_eq_self_iff.mpr
      intro x hx
      have hxm : x ∈ n ++ rstripSlash p := by rw [hR1] at hx; exact mem_dropWhile_sub hx
      simpa using (hnp_facts x hxm).2
    have hdwn : (n ++ rstripSlash p).dropWhile (fun c => !netlocStop c) =
        (rstripSlash p).dropWhile (fun c => !netlocStop c) := by
      rw [List.dropWhile_append, if_pos]
      rw [List.isEmpty_iff, List.dropWhile_eq_nil_iff]
      intro x hx
      simp [hn x hx]
    have hsemi2 : ';' ∉ usPath w := by
      rw [hP, hR1, hdwn]
      intro hx
      exact hp_semi (hpr_sub ';' (mem_dropWhile_sub hx))
    have hparse : (urlparseC w).1.path = usPath w := urlparseC_path_noSemi w hsemi2
    show normCore w = w
    unfold normCore
    rw [urlparseC_scheme, urlparseC_netloc, hparse, hS, hNet, hP, hR1]
    rw [List.append_assoc (s ++ "://".data), List.takeWhile_append_dropWhile,
      ← List.append_assoc (s ++ "://".data), rstripSlash_append,
      if_neg (by rw [rstripSlash_idem]; exact hpr), rstripSlash_idem]
  case pos =>
    have hw : rstripSlash (s ++ "://".data ++ n ++ p) = rstripSlash (s ++ "://".data ++ n) := by
      rw [rstripSlash_append, if_pos hpr]
    rw [hw]
    by_cases hn0 : n = []
    case neg =>
      have hrn : rstripSlash n = n := rstripSlash_of_no_slash n hn_noslash
      have hw2 : rstripSlash (s ++ "://".data ++ n) = s ++ "://".data ++ n := by
        rw [rstripSlash_append, if_neg (by rw [hrn]; exact hn0), hrn]
      rw [hw2]
      have hshape : s ++ "://".data ++ n = (a :: as) ++ ':' :: ('/' :: '/' :: n) := by
        rw [hsa, hcol]; simp
      have hclean : unsafeRemoved (s ++ "://".data ++ n) = s ++ "://".data ++ n := by
        apply unsafeRemoved_eq_self
        intro c hc
        rcases List.mem_append.mp hc with hc | hc
        · rcases List.mem_append.mp hc with hc | hc
          · exact hs_safe c hc
          · rw [hcol] at hc
            rintro (rfl | rfl | rfl) <;> simp at hc
        · exact hn_safe c hc
      have hsch : splitScheme (s ++ "://".data ++ n) = (s, '/' :: '/' :: n) := by
        rw [hshape, splitScheme_append a as _ halpha (by rw [← hsa]; exact hs_chars), ← hsa, hs_low]
      set w := s ++ "://".data ++ n with hw_def
      have hS : usScheme w = s := by unfold usScheme; rw [hclean, hsch]
      have hAfter : usAfterScheme w = '/' :: '/' :: n := by
        unfold usAfterScheme; rw [hclean, hsch]
      have hHas : usHasNet w = true := by unfold usHasNet; rw [hAfter]; rfl
      have hNet : usNetloc w = n := by
        unfold usNetloc
        rw [if_pos hHas, hAfter]
        show n.takeWhile (fun c => !netlocStop c) = n
        apply List.takeWhile_eq_self_iff.mpr
        intro x hx
        simp [hn x hx]
      have hR1 : usRest1 w = [] := by
        unfold usRest1
        rw [if_pos hHas, hAfter]
        show n.dropWhile (fun c => !netlocStop c) = []
        apply List.dropWhile_eq_nil_iff.mpr
        intro x hx
        simp [hn x hx]
      have hP : usPath w = [] := by
        unfold usPath usRest2
        rw [hR1]
        rfl
      have hparse : (urlparseC w).1.path = usPath w :=
        urlparseC_path_noSemi w (by rw [hP]; simp)
      show normCore w = w
      unfold normCore
      rw [urlparseC_scheme, urlparseC_netloc, hparse, hS, hNet, hP, List.append_nil]
      exact hw2
    case pos =>
      subst hn0
      have h1 : s ++ "://".data ++ ([] : Chars) = (s ++ [':']) ++ ['/', '/'] := by
        rw [hcol]; simp
      have hnos : '/' ∉ s ++ [':'] := by
        intro hc
        rcases List.mem_append.mp hc with hc | hc
        · exact hs_noslash hc
        · simp at hc
      have h2 : rstripSlash (s ++ "://".data ++ ([] : Chars)) = s ++ [':'] := by
        rw [h1, rstripSlash_append, if_pos (by rfl)]
        exact rstripSlash_of_no_slash _ hnos
      rw [h2]
      have hshape : s ++ [':'] = (a :: as) ++ ':' :: ([] : Chars) := by rw [hsa]
      have hclean : unsafeRemoved (s ++ [':']) = s ++ [':'] := by
        apply unsafeRemoved_eq_self
        intro c hc
        rcases List.mem_append.mp hc with hc | hc
        · exact hs_safe c hc
        · simp only [List.mem_singleton] at hc
          subst hc
          decide
      have hsch : splitScheme (s ++ [':']) = (s, []) := by
        rw [hshape, splitScheme_append a as _ halpha (by rw [← hsa]; exact hs_chars), ← hsa, hs_low]
      set w := s ++ [':'] with hw_def
      have hS : usScheme w = s := by unfold usScheme; rw [hclean, hsch]
      have hAfter : usAfterScheme w = [] := by unfold usAfterScheme; rw [hclean, hsch]
      have hHas : usHasNet w = false := by unfold usHasNet; rw [hAfter]; rfl
      have hNet : usNetloc w = [] := by
        unfold usNetloc
        rw [hHas]
        rfl
      have hR1 : usRest1 w = [] := by
        unfold usRest1
        rw [hHas, hAfter]
        rfl
      have hP : usPath w = [] := by
        unfold usPath usRest2
        rw [hR1]
        rfl
      have hparse : (urlparseC w).1.path = usPath w :=
        urlparseC_path_noSemi w (by rw [hP]; simp)
      show normCore w = w
      unfold normCore
      rw [urlparseC_scheme, urlparseC_netloc, hparse, hS, hNet, hP, List.append_nil]
      exact h2


theorem take_four_head (l : Chars) (h : l.take 4 = "http".data) : ∃ t, l = 'h' :: t := by
  cases l with
  | nil => simp at h
  | cons c t =>
    refine ⟨t, ?_⟩
    rw [List.take_succ_cons] at h
    have : c = 'h' := by
      have := congrArg (fun l => l.head?) h
      simpa using this
    rw [this]

theorem prefix_head_eq (w x : Chars) (hp : w <+: x) (hne : w ≠ []) : w.head? = x.head? := by
  obtain ⟨t, rfl⟩ := hp
  cases w with
  | nil => exact absurd rfl hne
  | cons a b => rfl

/-- Core fixed-point theorem: rebuilding the canonical form of any URL string
whose path carries no `;` and whose canonical form starts with `http` is
idempotent under `normCore`. -/
theorem normCore_fix (z : Chars) (hsemi : ';' ∉ usPath z)
    (h4 : (normCore z).take 4 = "http".data) :
    normCore (normCore z) = normCore z := by
  have hpath : (urlparseC z).1.path = usPath z := urlparseC_path_noSemi z hsemi
  have hnc : normCore z =
      rstripSlash (usScheme z ++ "://".data ++ usNetloc z ++ usPath z) := by
    unfold normCore
    rw [urlparseC_scheme, urlparseC_netloc, hpath]
  rcases usScheme_facts z with hS | ⟨hSne, hSchars, hSlow, hShead⟩
  · exfalso
    rw [hnc, hS, List.nil_append] at h4
    obtain ⟨t, ht⟩ := take_four_head _ h4
    have hx : ∃ r, "://".data ++ usNetloc z ++ usPath z = ':' :: r :=
      ⟨'/' :: '/' :: (usNetloc z ++ usPath z), by simp⟩
    obtain ⟨r, hr⟩ := hx
    have hne : rstripSlash ("://".data ++ usNetloc z ++ usPath z) ≠ [] := by
      rw [ht]; simp
    have := prefix_head_eq _ _ (rstripSlash_pref ("://".data ++ usNetloc z ++ usPath z)) hne
    rw [ht, hr] at this
    simp at this
  · rw [hnc]
    exact normCore_rebuild (usScheme z) (usNetloc z) (usPath z)
      hSchars hSlow hShead
      (usNetloc_stop z)
      (fun c hc => unsafeRemoved_safe (usNetloc_sub z c hc))
      (usPath_no_query z)
      (usPath_no_frag z)
      hsemi
      (fun c hc => unsafeRemoved_safe (usPath_sub z c hc))

/-! ### Character-provenance lemmas for `urljoin` -/

theorem mem_splitOnChar_sub (sep : Char) (l : Chars) :
    ∀ piece ∈ splitOnChar sep l, ∀ c ∈ piece, c ∈ l := by
  induction l with
  | nil =>
    intro piece hp c hc
    simp only [splitOnChar, List.mem_singleton] at hp
    subst hp
    simp at hc
  | cons a t ih =>
    intro piece hp c hc
    by_cases ha : a = sep
    · rw [splitOnChar, if_pos ha] at hp
      rcases List.mem_cons.mp hp with hp | hp
      · subst hp; simp at hc
      · exact List.mem_cons_of_mem _ (ih piece hp c hc)
    · rw [splitOnChar, if_neg ha] at hp
      cases hs : splitOnChar sep t with
      | nil =>
        rw [hs] at hp
        simp only [List.mem_singleton] at hp
        subst hp
        simp only [List.mem_singleton] at hc
        subst hc
        exact List.mem_cons_self _ _
      | cons h r =>
        rw [hs] at hp
        rcases List.mem_cons.mp hp with hp | hp
        · subst hp
          rcases List.mem_cons.mp hc with hc | hc
          · subst hc; exact List.mem_cons_self _ _
          · exact List.mem_cons_of_mem _
              (ih h (hs ▸ List.mem_cons_self _ _) c hc)
        · exact List.mem_cons_of_mem _
            (ih piece (hs ▸ List.mem_cons_of_mem _ hp) c hc)

theorem mem_resolveAux_sub (segs : List Chars) :
    ∀ acc, ∀ piece ∈ resolveAux acc segs, piece ∈ acc ∨ piece ∈ segs := by
  induction segs with
  | nil =>
    intro acc piece hp
    left
    simpa [resolveAux, List.mem_reverse] using hp
  | cons s t ih =>
    intro acc piece hp
    unfold resolveAux at hp
    by_cases h1 : s = "..".data
    · rw [if_pos h1] at hp
      rcases ih (acc.drop 1) piece hp with h | h
      · exact Or.inl (List.mem_of_mem_drop h)
      · exact Or.inr (List.mem_cons_of_mem _ h)
    · rw [if_neg h1] at hp
      by_cases h2 : s = ".".data
      · rw [if_pos h2] at hp
        rcases ih acc piece hp with h | h
        · exact Or.inl h
        · exact Or.inr (List.mem_cons_of_mem _ h)
      · rw [if_neg h2] at hp
        rcases ih (s :: acc) piece hp with h | h
        · rcases List.mem_cons.mp h with h | h
          · subst h; exact Or.inr (List.mem_cons_self _ _)
          · exact Or.inl h
        · exact Or.inr (List.mem_cons_of_mem _ h)

theorem mem_resolveDots_sub (segs : List Chars) :
    ∀ piece ∈ resolveDots segs, piece ∈ segs ∨ piece = [] := by
  intro piece hp
  unfold resolveDots at hp
  by_cases h : segs.getLast? = some ".".data ∨ segs.getLast? = some "..".data
  · rw [if_pos h] at hp
    rcases List.mem_append.mp hp with hp | hp
    · rcases mem_resolveAux_sub segs [] piece hp with h2 | h2
      · simp at h2
      · exact Or.inl h2
    · simp only [List.mem_singleton] at hp
      exact Or.inr hp
  · rw [if_neg h] at hp
    rcases mem_resolveAux_sub segs [] piece hp with h2 | h2
    · simp at h2
    · exact Or.inl h2

theorem mem_joinSep_sub (sep : Chars) (xs : List Chars) :
    ∀ c ∈ joinSep sep xs, c ∈ sep ∨ ∃ x ∈ xs, c ∈ x := by
  induction xs with
  | nil => intro c hc; simp [joinSep] at hc
  | cons x t ih =>
    intro c hc
    cases t with
    | nil =>
      simp only [joinSep] at hc
      exact Or.inr ⟨x, List.mem_singleton_self x, hc⟩
    | cons y r =>
      simp only [joinSep] at hc
      rcases List.mem_append.mp hc with hc | hc
      · rcases List.mem_append.mp hc with hc | hc
        · exact Or.inr ⟨x, List.mem_cons_self _ _, hc⟩
        · exact Or.inl hc
      · rcases ih c hc with h | ⟨z, hz, hcz⟩
        · exact Or.inl h
        · exact Or.inr ⟨z, List.mem_cons_of_mem _ hz, hcz⟩

theorem mem_urlunsplitBody_sub (netloc url : Chars) (c : Char)
    (hc : c ∈ urlunsplitBody netloc url) : c ∈ netloc ∨ c ∈ url ∨ c = '/' := by
  unfold urlunsplitBody at hc
  by_cases h : netloc ≠ [] ∨ (url ≠ [] ∧ url.take 2 = "//".data)
  · rw [if_pos h] at hc
    rcases List.mem_append.mp hc with hc | hc
    · rcases List.mem_append.mp hc with hc | hc
      · simp only [List.mem_cons, List.not_mem_nil, or_false] at hc
        rcases hc with hc | hc <;> exact Or.inr (Or.inr hc)
      · exact Or.inl hc
    · by_cases h2 : url ≠ [] ∧ url.take 1 ≠ ['/']
      · rw [if_pos h2] at hc
        rcases List.mem_cons.mp hc with hc | hc
        · exact Or.inr (Or.inr hc)
        · exact Or.inr (Or.inl hc)
      · rw [if_neg h2] at hc
        exact Or.inr (Or.inl hc)
  · rw [if_neg h] at hc
    exact Or.inr (Or.inl hc)

theorem mem_urlunsplitC_sub (scheme netloc url query frag : Chars) (c : Char)
    (hc : c ∈ urlunsplitC scheme netloc url query frag) :
    c ∈ scheme ∨ c ∈ netloc ∨ c ∈ url ∨ c ∈ query ∨ c ∈ frag ∨ c ∈ ['/', ':', '?', '#'] := by
  unfold urlunsplitC at hc
  rcases List.mem_append.mp hc with hc | hc
  · rcases List.mem_append.mp hc with hc | hc
    · by_cases h : scheme ≠ []
      · rw [if_pos h] at hc
        rcases List.mem_append.mp hc with hc | hc
        · exact Or.inl hc
        · rcases List.mem_cons.mp hc with hc | hc
          · subst hc; simp
          · rcases mem_urlunsplitBody_sub netloc url c hc with h2 | h2 | h2
            · exact Or.inr (Or.inl h2)
            · exact Or.inr (Or.inr (Or.inl h2))
            · subst h2; simp
      · rw [if_neg h] at hc
        rcases mem_urlunsplitBody_sub netloc url c hc with h2 | h2 | h2
        · exact Or.inr (Or.inl h2)
        · exact Or.inr (Or.inr (Or.inl h2))
        · subst h2; simp
    · by_cases h : query ≠ []
      · rw [if_pos h] at hc
        rcases List.mem_cons.mp hc with hc | hc
        · subst hc; simp
        · exact Or.inr (Or.inr (Or.inr (Or.inl hc)))
      · rw [if_neg h] at hc
        simp at hc
  · by_cases h : frag ≠ []
    · rw [if_pos h] at hc
      rcases List.mem_cons.mp hc with hc | hc
      · subst hc; simp
      · exact Or.inr (Or.inr (Or.inr (Or.inr (Or.inl hc))))
    · rw [if_neg h] at hc
      simp at hc

theorem mem_urlunparseC_sub (scheme netloc path params query frag : Chars) (c : Char)
    (hc : c ∈ urlunparseC scheme netloc path params query frag) :
    c ∈ scheme ∨ c ∈ netloc ∨ c ∈ path ∨ c ∈ params ∨ c ∈ query ∨ c ∈ frag ∨
      c ∈ ['/', ':', '?', '#', ';'] := by
  unfold urlunparseC at hc
  rcases mem_urlunsplitC_sub _ _ _ _ _ c hc with h | h | h | h | h | h
  · exact Or.inl h
  · exact Or.inr (Or.inl h)
  · by_cases hp : params ≠ []
    · rw [if_pos hp] at h
      rcases List.mem_append.mp h with h | h
      · exact Or.inr (Or.inr (Or.inl h))
      · rcases List.mem_cons.mp h with h | h
        · subst h; simp
        · exact Or.inr (Or.inr (Or.inr (Or.inl h)))
    · rw [if_neg hp] at h
      exact Or.inr (Or.inr (Or.inl h))
  · exact Or.inr (Or.inr (Or.inr (Or.inr (Or.inl h))))
  · exact Or.inr (Or.inr (Or.inr (Or.inr (Or.inr (Or.inl h)))))
  · simp only [List.mem_cons, List.not_mem_nil, or_false] at h
    rcases h with h | h | h | h <;> (subst h; simp)

/-! ### `;`-freeness preservation and `normAbs` fixed points -/

theorem usQuery_sub (z : Chars) : ∀ c ∈ (urlsplitC z).query, c ∈ unsafeRemoved z := by
  intro c hc
  show c ∈ unsafeRemoved z
  have h1 : c ∈ (usRest2 z).dropWhile (· ≠ '?') := List.mem_of_mem_drop hc
  exact usRest1_sub z c (mem_takeWhile_sub (mem_dropWhile_sub h1))

theorem usFragment_sub (z : Chars) : ∀ c ∈ (urlsplitC z).fragment, c ∈ unsafeRemoved z := by
  intro c hc
  have h1 : c ∈ (usRest1 z).dropWhile (· ≠ '#') := List.mem_of_mem_drop hc
  exact usRest1_sub z c (mem_dropWhile_sub h1)

theorem splitParamsC_snd_sub (p : Chars) : ∀ c ∈ (splitParamsC p).2, c ∈ p := by
  unfold splitParamsC
  intro c hc
  by_cases hs : '/' ∈ p
  · rw [if_pos hs] at hc
    rcases hm : ((p.drop (lastSlashIdx p)).findIdx? (· = ';')).map (· + lastSlashIdx p) with _ | i
    · rw [hm] at hc; simp at hc
    · rw [hm] at hc
      exact List.mem_of_mem_drop hc
  · rw [if_neg hs] at hc
    rcases hm : p.findIdx? (· = ';') with _ | i
    · rw [hm] at hc; simp at hc
    · rw [hm] at hc
      exact List.mem_of_mem_drop hc

theorem ujPath0_sub (l : Chars) : ∀ c ∈ ujPath0 l, c ∈ (urlsplitC l).path := by
  unfold ujPath0
  intro c hc
  by_cases h : ujHasParams l
  · rw [if_pos h] at hc
    exact splitParamsC_fst_sub _ c hc
  · rw [if_neg h] at hc
    exact hc

theorem ujParams_sub (l : Chars) : ∀ c ∈ ujParams l, c ∈ (urlsplitC l).path := by
  unfold ujParams
  intro c hc
  by_cases h : ujHasParams l
  · rw [if_pos h] at hc
    exact splitParamsC_snd_sub _ c hc
  · rw [if_neg h] at hc
    simp at hc

theorem https_schemeChars : ∀ c ∈ ("https".data : Chars), schemeChar c = true := by decide

theorem ujScheme_chars (l : Chars) : ∀ c ∈ ujScheme l, schemeChar c = true := by
  unfold ujScheme
  intro c hc
  by_cases h : (urlsplitC l).scheme = []
  · rw [if_pos h] at hc
    exact https_schemeChars c hc
  · rw [if_neg h] at hc
    rcases usScheme_facts l with h2 | ⟨_, h2, _, _⟩
    · exact absurd h2 h
    · exact h2 c hc

theorem ujSegments_sub (l : Chars) :
    ∀ piece ∈ ujSegments l, ∀ c ∈ piece, c ∈ ujPath0 l := by
  unfold ujSegments
  intro piece hp c hc
  by_cases h : (ujPath0 l).take 1 = ['/']
  · rw [if_pos h] at hp
    exact mem_splitOnChar_sub '/' _ piece hp c hc
  · rw [if_neg h] at hp
    rcases List.mem_append.mp hp with hp | hp
    · rcases List.mem_append.mp hp with hp | hp
      · simp only [List.mem_singleton] at hp
        subst hp
        simp at hc
      · have := List.mem_of_mem_dropLast (List.mem_of_mem_filter hp)
        exact mem_splitOnChar_sub '/' _ piece this c hc
    · rcases ho : (splitOnChar '/' (ujPath0 l)).getLast? with _ | x
      · rw [ho] at hp; simp at hp
      · rw [ho] at hp
        simp only [Option.toList_some, List.mem_singleton] at hp
        subst hp
        exact mem_splitOnChar_sub '/' _ piece (List.mem_of_mem_getLast? ho) c hc

theorem ujResolvedPath_sub (l : Chars) :
    ∀ c ∈ ujResolvedPath l, c ∈ ujPath0 l ∨ c = '/' := by
  unfold ujResolvedPath
  intro c hc
  rcases mem_joinSep_sub ['/'] _ c hc with h | ⟨x, hx, hcx⟩
  · simp only [List.mem_singleton] at h
    exact Or.inr h
  · rcases mem_resolveDots_sub _ x hx with h2 | h2
    · exact Or.inl (ujSegments_sub l x h2 c hcx)
    · subst h2; simp at hcx

theorem urlparseC_nil_params (s n p q f : Chars) :
    urlunparseC s n p [] q f = urlunsplitC s n p q f := by
  unfold urlunparseC
  rw [if_neg (by simp)]

theorem urljoinBase_noSemi (l : Chars) (h : ';' ∉ l) : ';' ∉ urljoinBase l := by
  have hpath_sub : ∀ c ∈ (urlsplitC l).path, c ∈ l :=
    fun c hc => unsafeRemoved_sub (usPath_sub l c hc)
  have hnet_sub : ∀ c ∈ (urlsplitC l).netloc, c ∈ l :=
    fun c hc => unsafeRemoved_sub (usNetloc_sub l c hc)
  have hq_sub : ∀ c ∈ (urlsplitC l).query, c ∈ l :=
    fun c hc => unsafeRemoved_sub (usQuery_sub l c hc)
  have hf_sub : ∀ c ∈ (urlsplitC l).fragment, c ∈ l :=
    fun c hc => unsafeRemoved_sub (usFragment_sub l c hc)
  have hnoparams : ujParams l = [] := by
    unfold ujParams
    rw [if_neg]
    intro hcon
    exact h (hpath_sub ';' hcon.2)
  have hscheme : ';' ∉ ujScheme l :=
    fun hc => (schemeChar_excl ';' (ujScheme_chars l ';' hc)).2.2.2.2.1 rfl
  have hpath0 : ';' ∉ ujPath0 l := fun hc => h (hpath_sub ';' (ujPath0_sub l ';' hc))
  unfold urljoinBase
  by_cases h0 : l = []
  · rw [if_pos h0]
    decide
  rw [if_neg h0]
  by_cases h1 : ujScheme l ≠ "https".data
  · rw [if_pos h1]
    exact h
  rw [if_neg h1]
  by_cases h2 : (urlsplitC l).netloc ≠ []
  · rw [if_pos h2, hnoparams, urlparseC_nil_params]
    intro hc
    rcases mem_urlunsplitC_sub _ _ _ _ _ ';' hc with hx | hx | hx | hx | hx | hx
    · exact hscheme hx
    · exact h (hnet_sub ';' hx)
    · exact hpath0 hx
    · exact h (hq_sub ';' hx)
    · exact h (hf_sub ';' hx)
    · simp at hx
  rw [if_neg h2]
  by_cases h3 : ujPath0 l = [] ∧ ujParams l = []
  · rw [if_pos h3, urlparseC_nil_params]
    intro hc
    rcases mem_urlunsplitC_sub _ _ _ _ _ ';' hc with hx | hx | hx | hx | hx | hx
    · exact hscheme hx
    · revert hx; decide
    · simp at hx
    · exact h (hq_sub ';' hx)
    · exact h (hf_sub ';' hx)
    · simp at hx
  · rw [if_neg h3, hnoparams, urlparseC_nil_params]
    intro hc
    rcases mem_urlunsplitC_sub _ _ _ _ _ ';' hc with hx | hx | hx | hx | hx | hx
    · exact hscheme hx
    · revert hx; decide
    · by_cases h4 : ujResolvedPath l = []
      · rw [if_pos h4] at hx
        simp at hx
      · rw [if_neg h4] at hx
        rcases ujResolvedPath_sub l ';' hx with h5 | h5
        · exact hpath0 h5
        · simp at h5
    · exact h (hq_sub ';' hx)
    · exact h (hf_sub ';' hx)
    · simp at hx


theorem pyStrip_sub (l : Chars) : ∀ c ∈ pyStrip l, c ∈ l := by
  intro c hc
  unfold pyStrip rstrip lstrip at hc
  rw [List.mem_reverse] at hc
  have := mem_dropWhile_sub hc
  rw [List.mem_reverse] at this
  exact mem_dropWhile_sub this

theorem toAbsUrl_noSemi (u : Chars) (h : ';' ∉ u) : ';' ∉ toAbsUrl u := by
  unfold toAbsUrl
  by_cases h0 : u = []
  · rw [if_pos h0]; simp
  rw [if_neg h0]
  have hs : ';' ∉ pyStrip u := fun hc => h (pyStrip_sub u ';' hc)
  by_cases h1 : (pyStrip u).take 1 = ['/']
  · rw [if_pos h1]
    exact urljoinBase_noSemi _ hs
  · rw [if_neg h1]
    exact hs

theorem urlunparseC_https_head (n p pr q f : Chars) :
    ∃ r, urlunparseC "https".data n p pr q f = "https".data ++ ':' :: r := by
  unfold urlunparseC urlunsplitC
  rw [if_pos (by decide : ("https".data : Chars) ≠ [])]
  exact ⟨urlunsplitBody n (if pr ≠ [] then p ++ ';' :: pr else p) ++
      (if q ≠ [] then '?' :: q else []) ++ (if f ≠ [] then '#' :: f else []), by simp⟩

theorem urljoinBase_head_https (l : Chars) (hne : l ≠ []) (hslash : l.take 1 = ['/']) :
    ∃ r, urljoinBase l = "https".data ++ ':' :: r := by
  obtain ⟨t, rfl⟩ : ∃ t, l = '/' :: t := by
    cases l with
    | nil => exact absurd rfl hne
    | cons a b =>
      refine ⟨b, ?_⟩
      simp only [List.take_succ_cons, List.take_zero] at hslash
      have : a = '/' := by
        have := congrArg (fun x => x.head?) hslash
        simpa using this
      rw [this]
  have hclean : ∃ t2, unsafeRemoved ('/' :: t) = '/' :: t2 := by
    refine ⟨unsafeRemoved t, ?_⟩
    unfold unsafeRemoved
    rw [List.filter_cons]
    simp
  obtain ⟨t2, ht2⟩ := hclean
  have hscheme : (urlsplitC ('/' :: t)).scheme = [] := by
    show usScheme ('/' :: t) = []
    unfold usScheme splitScheme
    rw [ht2]
    rw [if_neg (by simp [Char.isAlpha, Char.isUpper, Char.isLower])]
  have huj : ujScheme ('/' :: t) = "https".data := by
    unfold ujScheme
    rw [if_pos hscheme]
  unfold urljoinBase
  rw [if_neg (by simp : ¬('/' :: t = [])), if_neg (by rw [huj]; simp)]
  by_cases h2 : (urlsplitC ('/' :: t)).netloc ≠ []
  · rw [if_pos h2, huj]
    exact urlunparseC_https_head _ _ _ _ _
  rw [if_neg h2]
  by_cases h3 : ujPath0 ('/' :: t) = [] ∧ ujParams ('/' :: t) = []
  · rw [if_pos h3, huj]
    exact urlunparseC_https_head _ _ _ _ _
  · rw [if_neg h3, huj]
    exact urlunparseC_https_head _ _ _ _ _


theorem normAbs_eq_normCore (y : Chars) (hy : y ≠ []) :
    normAbs y = normCore (if y.take 4 = "http".data then y else toAbsUrl y) := by
  unfold normAbs
  rw [if_neg hy]

theorem usPath_noSemi_of (z : Chars) (h : ';' ∉ z) : ';' ∉ usPath z :=
  fun hc => h (unsafeRemoved_sub (usPath_sub z ';' hc))

/-- `_norm_abs` applied twice agrees with `_norm_abs` applied once for any
input without `;` whose normalization starts with `http`. -/
theorem normAbs_fix (y : Chars) (hsemi : ';' ∉ y)
    (h4 : (normAbs y).take 4 = "http".data) :
    normAbs (normAbs y) = normAbs y := by
  by_cases hy : y = []
  · subst hy
    rfl
  · rw [normAbs_eq_normCore y hy] at h4 ⊢
    have hzsemi : ';' ∉ (if y.take 4 = "http".data then y else toAbsUrl y) := by
      by_cases hb : y.take 4 = "http".data
      · rw [if_pos hb]; exact hsemi
      · rw [if_neg hb]; exact toAbsUrl_noSemi y hsemi
    have hfix := normCore_fix _ (usPath_noSemi_of _ hzsemi) h4
    have hne : normCore (if y.take 4 = "http".data then y else toAbsUrl y) ≠ [] := by
      obtain ⟨t, ht⟩ := take_four_head _ h4
      rw [ht]; simp
    rw [normAbs_eq_normCore _ hne, if_pos h4, hfix]

theorem take4_append_colon (s y : Chars) (h : s.take 4 = "http".data) :
    ((s ++ [':']) ++ y).take 4 = "http".data := by
  have hlen : 4 ≤ s.length := by
    have := congrArg List.length h
    simp [List.length_take] at this
    omega
  rw [List.append_assoc, List.take_append_eq_append_take]
  have h0 : 4 - s.length = 0 := by omega
  rw [h0]
  simp [h]

theorem rstripSlash_scheme_take4 (s y : Chars) (h : s.take 4 = "http".data)
    (hnos : '/' ∉ s) :
    (rstripSlash ((s ++ [':']) ++ y)).take 4 = "http".data := by
  rw [rstripSlash_append]
  by_cases hy : rstripSlash y = []
  · rw [if_pos hy]
    rw [rstripSlash_of_no_slash _ (by
      intro hc
      rcases List.mem_append.mp hc with hc | hc
      · exact hnos hc
      · simp at hc)]
    have := take4_append_colon s [] h
    simpa using this
  · rw [if_neg hy]
    exact take4_append_colon s _ h

theorem assemble_shape (S N P : Chars) :
    S ++ "://".data ++ N ++ P = (S ++ [':']) ++ ('/' :: '/' :: (N ++ P)) := by
  rw [show ("://".data : Chars) = [':', '/', '/'] from rfl]
  simp

theorem normCore_take4_of_scheme (z : Chars) (h : (usScheme z).take 4 = "http".data)
    (hnos : '/' ∉ usScheme z) :
    (normCore z).take 4 = "http".data := by
  unfold normCore
  rw [urlparseC_scheme, assemble_shape]
  exact rstripSlash_scheme_take4 _ _ h hnos

theorem scheme_take4_of_http (u : Chars) (hb : u.take 4 = "http".data)
    (hsch : usScheme u ≠ []) : (usScheme u).take 4 = "http".data := by
  have hu : u = "http".data ++ u.drop 4 := by
    conv_lhs => rw [← List.take_append_drop 4 u]
    rw [hb]
  have hclean : unsafeRemoved u = "http".data ++ unsafeRemoved (u.drop 4) := by
    conv_lhs => rw [hu]
    unfold unsafeRemoved
    rw [List.filter_append]
    rfl
  rcases splitScheme_spec (unsafeRemoved u) with h | ⟨s0, rest, he, hs0ne, hchars, _, hres⟩
  · exfalso; apply hsch; unfold usScheme; rw [h]
  · have husch : usScheme u = lowerC s0 := by unfold usScheme; rw [hres]
    have heq : s0 ++ ':' :: rest = "http".data ++ unsafeRemoved (u.drop 4) := by
      rw [← he, hclean]
    have h2 : (("http".data : Chars) ++ unsafeRemoved (u.drop 4)).take 4 = "http".data := by
      rw [List.take_append_eq_append_take]
      rfl
    by_cases hlen : s0.length ≤ 3
    · exfalso
      have h1 : (s0 ++ ':' :: rest).take 4 = s0 ++ (':' :: rest).take (4 - s0.length) := by
        rw [List.take_append_eq_append_take, List.take_of_length_le (by omega)]
      rw [heq, h2] at h1
      have h3 : ':' ∈ (s0 ++ (':' :: rest).take (4 - s0.length)) := by
        apply List.mem_append.mpr
        right
        have h5 : 4 - s0.length = (3 - s0.length) + 1 := by omega
        rw [h5, List.take_succ_cons]
        exact List.mem_cons_self _ _
      rw [← h1] at h3
      exact absurd h3 (by decide)
    · push_neg at hlen
      have h4 : s0.take 4 = "http".data := by
        have h1 : (s0 ++ ':' :: rest).take 4 = s0.take 4 := by
          rw [List.take_append_eq_append_take]
          have h0 : 4 - s0.length = 0 := by omega
          rw [h0]
          simp
        rw [heq, h2] at h1
        exact h1.symm
      rw [husch]
      show (List.map Char.toLower s0).take 4 = "http".data
      rw [← List.map_take, h4]
      rfl

theorem lstrip_http (t : Chars) : lstrip ('h' :: t) = 'h' :: t := by
  unfold lstrip
  rw [List.dropWhile_cons, if_neg (by decide)]

theorem pyStrip_take1_ne_slash_of_http (u : Chars) (hb : u.take 4 = "http".data) :
    ¬((pyStrip u).take 1 = ['/']) := by
  obtain ⟨t, rfl⟩ := take_four_head u hb
  intro hcon
  have h2 : pyStrip ('h' :: t) <+: 'h' :: t := by
    unfold pyStrip
    rw [lstrip_http]
    unfold rstrip
    have := List.dropWhile_suffix (l := ('h' :: t).reverse) pyWhitespace
    simpa using List.reverse_prefix.mpr this
  have hne : pyStrip ('h' :: t) ≠ [] := by
    intro h0; rw [h0] at hcon; simp at hcon
  have hpe := prefix_head_eq _ _ h2 hne
  cases hps : pyStrip ('h' :: t) with
  | nil => exact hne hps
  | cons a b =>
    rw [hps] at hcon hpe
    simp only [List.take_succ_cons, List.take_zero] at hcon
    have ha : a = '/' := by
      have := congrArg (fun x => x.head?) hcon
      simpa using this
    rw [ha] at hpe
    simp at hpe

/-- Under the amended hypothesis, `_norm_abs` output starts with `http`. -/
theorem normAbs_take4_of_hyp (u : Chars)
    (hcase : (pyStrip u).take 1 = ['/'] ∨ (u.take 4 = "http".data ∧ usScheme u ≠ [])) :
    (normAbs u).take 4 = "http".data := by
  have hy : u ≠ [] := by
    intro h0
    subst h0
    rcases hcase with hc | ⟨hc, _⟩
    · simp [pyStrip, lstrip, rstrip] at hc
    · simp at hc
  rw [normAbs_eq_normCore u hy]
  rcases hcase with hc | ⟨hb, hsch⟩
  · rw [if_neg (fun hb => pyStrip_take1_ne_slash_of_http u hb hc)]
    have hstrip_ne : pyStrip u ≠ [] := by
      intro h0; rw [h0] at hc; simp at hc
    have hta : toAbsUrl u = urljoinBase (pyStrip u) := by
      unfold toAbsUrl
      rw [if_neg hy, if_pos hc]
    obtain ⟨r, hr⟩ := urljoinBase_head_https (pyStrip u) hstrip_ne hc
    rw [hta, hr]
    have hsch : usScheme ("https".data ++ ':' :: r) = "https".data := by
      unfold usScheme
      have hcl : unsafeRemoved ("https".data ++ ':' :: r) =
          "https".data ++ ':' :: unsafeRemoved r := by
        unfold unsafeRemoved
        rw [List.filter_append, List.filter_cons]
        rfl
      rw [hcl, splitScheme_append 'h' "ttps".data _ (by decide)
        (fun x hx => https_schemeChars x hx)]
      rfl
    apply normCore_take4_of_scheme
    · rw [hsch]; rfl
    · rw [hsch]; decide
  · rw [if_pos hb]
    apply normCore_take4_of_scheme
    · exact scheme_take4_of_http u hb hsch
    · rcases usScheme_facts u with h | ⟨_, hchars, _, _⟩
      · exact absurd h hsch
      · exact fun hc => (schemeChar_excl '/' (hchars '/' hc)).2.1 rfl

/-- **C5** — counterexample to the claim as stated.  `_norm_abs` is not
idempotent on every input string: the scheme-less input `"hello"` normalizes
to `"://hello"`, which normalizes again to `"://://hello"`; and for a path
carrying `;` parameters, `"http://h/a;x/"` normalizes to `"http://h/a;x"`,
which normalizes again to `"http://h/a"` (the `;x` is parsed as path
parameters only once the trailing slash is gone). -/
theorem claim_C5_counterexample :
    (normAbs "hello".data = "://hello".data ∧
     normAbs (normAbs "hello".data) ≠ normAbs "hello".data) ∧
    (normAbs "http://h/a;x/".data = "http://h/a;x".data ∧
     normAbs (normAbs "http://h/a;x/".data) ≠ normAbs "http://h/a;x/".data) := by
  exact ⟨⟨by decide, by decide⟩, ⟨by decide, by decide⟩⟩

/-- **C5** (amended).  URL normalization is idempotent
(`_norm_abs(_norm_abs(u)) = _norm_abs(u)`) for every input string that
contains no `;` and either resolves site-relatively (its stripped form
starts with `/`) or starts with `http` and carries a well-formed scheme.
These cover every URL shape the scrapers feed to `_norm_abs`. -/
theorem claim_C5 (u : Chars)
    (hsemi : ';' ∉ u)
    (hcase : (pyStrip u).take 1 = ['/'] ∨ (u.take 4 = "http".data ∧ usScheme u ≠ [])) :
    normAbs (normAbs u) = normAbs u :=
  normAbs_fix u hsemi (normAbs_take4_of_hyp u hcase)

/-- **C5** — witness: the amended idempotence theorem applied to the
concrete site-relative input `/somchai.prof`. -/
theorem claim_C5_witness :
    (';' ∉ "/somchai.prof".data) ∧
    normAbs (normAbs "/somchai.prof".data) = normAbs "/somchai.prof".data :=
  ⟨by decide, claim_C5 "/somchai.prof".data (by decide) (Or.inl (by decide))⟩

/-! ### `_fallback_extract_from_html`: the raw-markup regex fallback -/

/-- A quote character, `["\']` in the regexes. -/
def isQuote (c : Char) : Bool := c = '"' ∨ c = '\''

/-- One attempted match of the EN variant's href regex
`href=["\'](/[^"\']{1,200})["\']` at the current position: the literal
`href=`, an opening quote, `/`, a maximal run of 1–200 non-quote characters,
then a closing quote.  (Greedy matching with backtracking collapses to this
because the run's characters can never serve as the closing quote.) -/
def tryHrefEn : Chars → Option (Chars × Chars)
  | 'h' :: 'r' :: 'e' :: 'f' :: '=' :: q :: '/' :: rest =>
    if isQuote q then
      let run := rest.takeWhile (fun c => !isQuote c)
      if 1 ≤ run.length ∧ run.length ≤ 200 then
        match rest.drop run.length with
        | c :: tail => if isQuote c then some ('/' :: run, tail) else none
        | [] => none
      else none
    else none
  | _ => none

/-- One attempted match of the Thai variant's href regex
`href=["\'](/[^"\']]{1,200})["\']` at the current position.  Note the
mismatched bracket in the source pattern: the character class closes after
`[^"\']`, so the regex demands one non-quote character followed by 1–200
literal `]` characters before the closing quote. -/
def tryHrefTh : Chars → Option (Chars × Chars)
  | 'h' :: 'r' :: 'e' :: 'f' :: '=' :: q :: '/' :: c :: rest =>
    if isQuote q ∧ !isQuote c then
      let run := rest.takeWhile (· = ']')
      if 1 ≤ run.length ∧ run.length ≤ 200 then
        match rest.drop run.length with
        | d :: tail => if isQuote d then some ('/' :: c :: run, tail) else none
        | [] => none
      else none
    else none
  | _ => none

/-- The alternation `(?:path|to|link)` followed by the closing `"`. -/
def jsonKeyRest : Chars → Option Chars
  | 'p' :: 'a' :: 't' :: 'h' :: '"' :: r => some r
  | 't' :: 'o' :: '"' :: r => some r
  | 'l' :: 'i' :: 'n' :: 'k' :: '"' :: r => some r
  | _ => none

/-- `\s` of Python's `re` (ASCII portion). -/
def reWhitespace (c : Char) : Bool :=
  c = ' ' ∨ c = '\t' ∨ c = '\n' ∨ c = '\r' ∨ c = '\x0b' ∨ c = '\x0c'

/-- One attempted match of the JSON-shaped key regex
`"(?:path|to|link)"\s*:\s*"(/[^"\\]{1,200})"` (identical in both variants). -/
def tryJsonKey : Chars → Option (Chars × Chars)
  | '"' :: rest =>
    match jsonKeyRest rest with
    | none => none
    | some r1 =>
      match r1.dropWhile reWhitespace with
      | ':' :: r2 =>
        match r2.dropWhile reWhitespace with
        | '"' :: '/' :: r3 =>
          let run := r3.takeWhile (fun c => !(c = '"' ∨ c = '\\'))
          if 1 ≤ run.length ∧ run.length ≤ 200 then
            match r3.drop run.length with
            | '"' :: tail => some ('/' :: run, tail)
            | _ => none
          else none
        | _ => none
      | _ => none
  | _ => none

/-- `re.finditer` driver: scan left to right, resuming after each
non-overlapping match; collects the captured groups. -/
def scanRe (tryM : Chars → Option (Chars × Chars)) : Nat → Chars → List Chars
  | 0, _ => []
  | _ + 1, [] => []
  | fuel + 1, s@(_ :: tail) =>
    match tryM s with
    | some (g, rest) => g :: scanRe tryM fuel rest
    | none => scanRe tryM fuel tail

/-- The captured groups of `_fallback_extract_from_html` (EN variant):
both regexes run over the markup. -/
def fallbackCandidatesEn (html : Chars) : List Chars :=
  scanRe tryHrefEn (html.length + 1) html ++ scanRe tryJsonKey (html.length + 1) html

/-- The captured groups of `_fallback_extract_from_html` (Thai variant). -/
def fallbackCandidatesTh (html : Chars) : List Chars :=
  scanRe tryHrefTh (html.length + 1) html ++ scanRe tryJsonKey (html.length + 1) html

/-- `_fallback_extract_from_html` (EN): each captured group is resolved via
`_norm_abs(urljoin(BASE, group))` (the Python code collects them into a set;
deduplication happens when the candidate set is formed). -/
def fallbackExtractEn (html : Chars) : List Chars :=
  (fallbackCandidatesEn html).map (fun g => normAbs (urljoinBase g))

/-- `_fallback_extract_from_html` (Thai). -/
def fallbackExtractTh (html : Chars) : List Chars :=
  (fallbackCandidatesTh html).map (fun g => normAbs (urljoinBase g))

/-! ### `get_profile_links`: dedup, filter, sort -/

/-- `_collect_candidates_via_js`: the page script keeps only strings starting
with `/`; each is normalized via `_norm_abs(_to_abs_url(r))`. -/
def collectViaJs (domVals : List Chars) : List Chars :=
  (domVals.filter (fun v => v.take 1 = ['/'])).map (fun r => normAbs (toAbsUrl r))

/-- `_extract_from_nuxt`: the state walk keeps only strings starting with
`/`; each is normalized via `_norm_abs(urljoin(BASE, v))`. -/
def extractFromNuxt (vals : List Chars) : List Chars :=
  (vals.filter (fun v => v.take 1 = ['/'])).map (fun v => normAbs (urljoinBase v))

/-- Python string comparison: lexicographic by code point. -/
def charsLe : Chars → Chars → Bool
  | [], _ => true
  | _ :: _, [] => false
  | a :: as, b :: bs =>
    if a.toNat < b.toNat then true
    else if b.toNat < a.toNat then false
    else charsLe as bs

/-- The candidate union of one discovery run: DOM-attribute scan, raw-markup
regex fallback, client-framework state walk (`links |= ...` in
`visit_and_collect`). -/
def candidateLinks (dom : List Chars) (html : Chars) (nuxt : List Chars) : List Chars :=
  collectViaJs dom ++ fallbackExtractEn html ++ extractFromNuxt nuxt

/-- Deduplicate (the Python set), filter with the profile predicate, and
sort (`sorted(all_links)`). -/
def strLe (a b : Chars) : Prop := charsLe a b = true

instance : DecidableRel strLe := fun a b => by
  unfold strLe
  infer_instance

def linksOfCandidates (keep : Chars → Bool) (cands : List Chars) : List Chars :=
  List.insertionSort strLe ((cands.dedup).filter keep)

/-- `get_profile_links` on one discovery run's raw findings. -/
def getProfileLinksModel (keep : Chars → Bool) (dom : List Chars) (html : Chars)
    (nuxt : List Chars) : List Chars :=
  linksOfCandidates keep (candidateLinks dom html nuxt)

theorem char_toNat_inj (a b : Char) (h : a.toNat = b.toNat) : a = b :=
  Char.ext (UInt32.ext h)

theorem charsLe_total (a b : Chars) : charsLe a b = true ∨ charsLe b a = true := by
  induction a generalizing b with
  | nil => left; rfl
  | cons x xs ih =>
    cases b with
    | nil => right; rfl
    | cons y ys =>
      by_cases h1 : x.toNat < y.toNat
      · left; unfold charsLe; rw [if_pos h1]
      · by_cases h2 : y.toNat < x.toNat
        · right; unfold charsLe; rw [if_pos h2]
        · rcases ih ys with h | h
          · left; unfold charsLe; rw [if_neg h1, if_neg h2]; exact h
          · right; unfold charsLe; rw [if_neg h2, if_neg h1]; exact h

theorem charsLe_trans (a b c : Chars) (hab : charsLe a b = true)
    (hbc : charsLe b c = true) : charsLe a c = true := by
  induction a generalizing b c with
  | nil => rfl
  | cons x xs ih =>
    cases b with
    | nil => simp [charsLe] at hab
    | cons y ys =>
      cases c with
      | nil => simp [charsLe] at hbc
      | cons z zs =>
        unfold charsLe at hab hbc ⊢
        by_cases h1 : x.toNat < y.toNat
        · by_cases h2 : y.toNat < z.toNat
          · rw [if_pos (by omega)]
          · by_cases h3 : z.toNat < y.toNat
            · rw [if_neg h2, if_pos h3] at hbc
              simp at hbc
            · have : y.toNat = z.toNat := by omega
              rw [if_pos (by omega)]
        · by_cases h2 : y.toNat < x.toNat
          · rw [if_neg h1, if_pos h2] at hab
            simp at hab
          · have hxy : x.toNat = y.toNat := by omega
            by_cases h3 : y.toNat < z.toNat
            · rw [if_pos (by omega)]
            · by_cases h4 : z.toNat < y.toNat
              · rw [if_neg h3, if_pos h4] at hbc
                simp at hbc
              · rw [if_neg h1, if_neg h2] at hab
                rw [if_neg h3, if_neg h4] at hbc
                rw [if_neg (by omega), if_neg (by omega)]
                exact ih ys zs hab hbc

theorem charsLe_antisymm (a b : Chars) (hab : charsLe a b = true)
    (hba : charsLe b a = true) : a = b := by
  induction a generalizing b with
  | nil =>
    cases b with
    | nil => rfl
    | cons y ys => simp [charsLe] at hba
  | cons x xs ih =>
    cases b with
    | nil => simp [charsLe] at hab
    | cons y ys =>
      unfold charsLe at hab hba
      by_cases h1 : x.toNat < y.toNat
      · rw [if_pos h1] at hab
        rw [if_neg (by omega), if_pos h1] at hba
        simp at hba
      · by_cases h2 : y.toNat < x.toNat
        · rw [if_neg h1, if_pos h2] at hab
          simp at hab
        · rw [if_neg h1, if_neg h2] at hab
          rw [if_neg h2, if_neg h1] at hba
          have hx : x = y := char_toNat_inj x y (by omega)
          rw [hx, ih ys hab hba]

instance : IsTotal Chars strLe := ⟨charsLe_total⟩
instance : IsTrans Chars strLe := ⟨charsLe_trans⟩
instance : IsAntisymm Chars strLe := ⟨charsLe_antisymm⟩

theorem normCore_ne_nil (z : Chars) : normCore z ≠ [] := by
  unfold normCore
  intro h
  rw [rstripSlash_eq_nil_iff] at h
  have hm : ':' ∈ (urlparseC z).1.scheme ++ "://".data ++ (urlparseC z).1.netloc ++
      (urlparseC z).1.path := by
    apply List.mem_append.mpr
    left
    apply List.mem_append.mpr
    left
    apply List.mem_append.mpr
    right
    decide
  have := h ':' hm
  simp at this

theorem base_prefix_take4 (u : Chars) (h : BASE.isPrefixOf u = true) :
    u.take 4 = "http".data := by
  obtain ⟨t, rfl⟩ := List.isPrefixOf_iff_prefix.mp h
  rfl

theorem base_prefix_ne_nil (u : Chars) (h : BASE.isPrefixOf u = true) : u ≠ [] := by
  obtain ⟨t, rfl⟩ := List.isPrefixOf_iff_prefix.mp h
  simp [BASE]

theorem linksOfCandidates_sorted (keep : Chars → Bool) (cands : List Chars) :
    List.Sorted strLe (linksOfCandidates keep cands) :=
  List.sorted_insertionSort strLe _

theorem linksOfCandidates_nodup (keep : Chars → Bool) (cands : List Chars) :
    (linksOfCandidates keep cands).Nodup :=
  (List.perm_insertionSort strLe _).symm.nodup ((List.nodup_dedup cands).filter keep)

theorem dedup_perm_of_perm (c1 c2 : List Chars) (h : c1.Perm c2) :
    c1.dedup.Perm c2.dedup := by
  rw [List.perm_ext_iff_of_nodup (List.nodup_dedup c1) (List.nodup_dedup c2)]
  intro a
  rw [List.mem_dedup, List.mem_dedup]
  exact h.mem_iff

theorem linksOfCandidates_perm_inv (keep : Chars → Bool) (c1 c2 : List Chars)
    (h : c1.Perm c2) :
    linksOfCandidates keep c1 = linksOfCandidates keep c2 := by
  unfold linksOfCandidates
  apply List.eq_of_perm_of_sorted ?_ (List.sorted_insertionSort strLe _)
    (List.sorted_insertionSort strLe _)
  exact ((List.perm_insertionSort strLe _).trans
    ((dedup_perm_of_perm c1 c2 h).filter keep)).trans
    (List.perm_insertionSort strLe _).symm

theorem mem_linksOfCandidates (keep : Chars → Bool) (cands : List Chars) (u : Chars)
    (hu : u ∈ linksOfCandidates keep cands) : u ∈ cands ∧ keep u = true := by
  unfold linksOfCandidates at hu
  rw [(List.perm_insertionSort strLe _).mem_iff, List.mem_filter] at hu
  exact ⟨List.mem_dedup.mp hu.1, hu.2⟩

theorem mem_candidateLinks (dom : List Chars) (html : Chars) (nuxt : List Chars)
    (u : Chars) (hu : u ∈ candidateLinks dom html nuxt) :
    (∃ r ∈ dom, u = normAbs (toAbsUrl r)) ∨
    (∃ g ∈ fallbackCandidatesEn html, u = normAbs (urljoinBase g)) ∨
    (∃ v ∈ nuxt, u = normAbs (urljoinBase v)) := by
  unfold candidateLinks collectViaJs fallbackExtractEn extractFromNuxt at hu
  rcases List.mem_append.mp hu with h | h
  · rcases List.mem_append.mp h with h1 | h1
    · left
      rcases List.mem_map.mp h1 with ⟨r, hr, hru⟩
      exact ⟨r, (List.mem_filter.mp hr).1, hru.symm⟩
    · right; left
      rcases List.mem_map.mp h1 with ⟨g, hg, hgu⟩
      exact ⟨g, hg, hgu.symm⟩
  · right; right
    rcases List.mem_map.mp h with ⟨v, hv, hvu⟩
    exact ⟨v, (List.mem_filter.mp hv).1, hvu.symm⟩

theorem normAbs_fix_of_base (y u : Chars) (hsemi : ';' ∉ y) (hu : u = normAbs y)
    (hb : BASE.isPrefixOf u = true) : normAbs u = u := by
  subst hu
  exact normAbs_fix y hsemi (base_prefix_take4 _ hb)



/-- **C4** (amended). The link list returned by `get_profile_links` is sorted
and duplicate-free, and is invariant under reordering of the collected
candidates; and ­— provided every kept link extends `BASE` and no raw
candidate contains `;` — every returned link is nonempty, is a fixed point of
`_norm_abs`, and the per-record `profile_url` values (`_norm_abs` of each
link) are pairwise distinct. Without the `;` restriction the last part fails
(see the counterexample). -/
theorem claim_C4 :
    (∀ (keep : Chars → Bool) (cands : List Chars),
        List.Sorted strLe (linksOfCandidates keep cands) ∧
        (linksOfCandidates keep cands).Nodup) ∧
    (∀ (keep : Chars → Bool) (c1 c2 : List Chars), c1.Perm c2 →
        linksOfCandidates keep c1 = linksOfCandidates keep c2) ∧
    (∀ (keep : Chars → Bool) (dom : List Chars) (html : Chars) (nuxt : List Chars),
        (∀ v, keep v = true → BASE.isPrefixOf v = true) →
        (∀ s ∈ dom, ';' ∉ s) →
        (∀ g ∈ fallbackCandidatesEn html, ';' ∉ g) →
        (∀ v ∈ nuxt, ';' ∉ v) →
        (∀ u ∈ getProfileLinksModel keep dom html nuxt, u ≠ [] ∧ normAbs u = u) ∧
        ((getProfileLinksModel keep dom html nuxt).map normAbs).Nodup) := by
  refine ⟨fun keep cands => ⟨linksOfCandidates_sorted keep cands,
    linksOfCandidates_nodup keep cands⟩,
    fun keep c1 c2 h => linksOfCandidates_perm_inv keep c1 c2 h, ?_⟩
  intro keep dom html nuxt hbase hdom hfb hnuxt
  have hfix : ∀ u ∈ getProfileLinksModel keep dom html nuxt, u ≠ [] ∧ normAbs u = u := by
    intro u hu
    obtain ⟨hcand, hkeep⟩ := mem_linksOfCandidates keep _ u hu
    have hb : BASE.isPrefixOf u = true := hbase u hkeep
    refine ⟨base_prefix_ne_nil u hb, ?_⟩
    rcases mem_candidateLinks dom html nuxt u hcand with ⟨r, hr, hru⟩ | ⟨g, hg, hgu⟩ |
        ⟨v, hv, hvu⟩
    · exact normAbs_fix_of_base _ u (toAbsUrl_noSemi r (hdom r hr)) hru hb
    · exact normAbs_fix_of_base _ u (urljoinBase_noSemi g (hfb g hg)) hgu hb
    · exact normAbs_fix_of_base _ u (urljoinBase_noSemi v (hnuxt v hv)) hvu hb
  refine ⟨hfix, ?_⟩
  have hmap : (getProfileLinksModel keep dom html nuxt).map normAbs =
      getProfileLinksModel keep dom html nuxt := by
    have := List.map_congr_left (fun u hu => (hfix u hu).2)
    rw [this]
    exact List.map_id _
  rw [hmap]
  exact linksOfCandidates_nodup keep _

/-- **C4**, counterexample to the unamended claim: from the two DOM hrefs
`/a.b;x/` and `/a.b` the EN `get_profile_links` returns two distinct links
whose `_norm_abs` images coincide, so two records would share the same
`profile_url`. -/
theorem claim_C4_counterexample :
    getProfileLinksModel isProfileAbsUrlEn ["/a.b;x/".data, "/a.b".data] [] [] =
      ["https://computing.kku.ac.th/a.b".data,
       "https://computing.kku.ac.th/a.b;x".data] ∧
    ¬ ((getProfileLinksModel isProfileAbsUrlEn
        ["/a.b;x/".data, "/a.b".data] [] []).map normAbs).Nodup := by
  constructor
  · decide
  · decide

/-- Witness instantiating `claim_C4` at concrete inputs. -/
theorem claim_C4_witness :
    normAbs "https://computing.kku.ac.th/somchai.prof".data =
      "https://computing.kku.ac.th/somchai.prof".data :=
  ((claim_C4.2.2 isProfileAbsUrlEn ["/somchai.prof".data] [] []
      (fun v hv => by
        rw [profileEn_eq] at hv
        unfold profileEnSpec at hv
        rw [Bool.and_eq_true] at hv
        exact hv.1)
      (by decide) (by decide) (by decide)).1
    "https://computing.kku.ac.th/somchai.prof".data (by decide)).2

/-- Outcome of a Python computation: a value, or a raised exception. -/
inductive PyResult (α : Type) where
  | ok : α → PyResult α
  | exn : PyResult α
deriving DecidableEq, Repr

/-- The per-item loop of `main` (both variants): each link is scraped inside
`try: people.append(scrape_profile(driver, u)) except Exception: pass`, so a
raising link contributes nothing and the loop continues. -/
def collectPeople {α : Type} (scrape : Chars → PyResult α) (links : List Chars) :
    List α :=
  links.filterMap (fun u => match scrape u with
    | .ok r => some r
    | .exn => none)

/-- `main` of the Thai variant: `links = get_profile_links(driver)` is NOT
wrapped in any `except`, so a discovery error propagates out of `main`
(through the `finally`) and nothing is written or printed. -/
def mainThai {α : Type} (discover : PyResult (List Chars))
    (scrape : Chars → PyResult α) : PyResult (List α) :=
  match discover with
  | .ok links => .ok (collectPeople scrape links)
  | .exn => .exn

/-- The three seed paths of the EN variant's `main`. -/
def enSeeds : List Chars := ["/people".data, "/en/people".data, "/th/people".data]

/-- One seed of the EN `main`: `try: links |= visit_and_collect(driver,
urljoin(BASE, p)) except Exception: pass`. -/
def seedLinks (seedCollect : Chars → PyResult (List Chars)) (p : Chars) :
    List Chars :=
  match seedCollect (urljoinBase p) with
  | .ok l => l
  | .exn => []

/-- `links = sorted(links)` over the union of the per-seed sets. -/
def enLinks (seedCollect : Chars → PyResult (List Chars)) : List Chars :=
  List.insertionSort strLe ((enSeeds.flatMap (seedLinks seedCollect)).dedup)

/-- `main` of the EN variant: every discovery seed and every profile scrape
is individually guarded, so the people array is always assembled. -/
def mainEn {α : Type} (seedCollect : Chars → PyResult (List Chars))
    (scrape : Chars → PyResult α) : PyResult (List α) :=
  .ok (collectPeople scrape (enLinks seedCollect))

/-- **C2** (amended). In the EN variant every run emits a JSON array: seed
discovery errors and per-profile errors are all swallowed. In the Thai
variant an array is emitted whenever link discovery succeeds — per-profile
errors are swallowed — but a discovery error propagates out of `main`
uncaught (only `finally: driver.quit()` intervenes), so no JSON is emitted
at all in that case; the unamended "any top-level error still yields an
empty array" is refuted by the counterexample. -/
theorem claim_C2 :
    (∀ (seedCollect : Chars → PyResult (List Chars))
        (scrape : Chars → PyResult (List Chars)),
        ∃ l, mainEn seedCollect scrape = .ok l) ∧
    (∀ (links : List Chars) (scrape : Chars → PyResult (List Chars)),
        ∃ l, mainThai (.ok links) scrape = .ok l) ∧
    (∀ (scrape : Chars → PyResult (List Chars)),
        mainThai .exn scrape = .exn) :=
  ⟨fun seedCollect scrape => ⟨collectPeople scrape (enLinks seedCollect), rfl⟩,
   fun links scrape => ⟨collectPeople scrape links, rfl⟩,
   fun _ => rfl⟩

/-- **C2**, counterexample to the unamended claim: in the Thai variant a
failing `get_profile_links` makes `main` raise; the run produces no JSON
array, empty or otherwise. -/
theorem claim_C2_counterexample :
    mainThai (α := Chars) .exn (fun _ => .exn) = .exn ∧
    ∀ l : List Chars, mainThai (α := Chars) .exn (fun _ => .exn) ≠ .ok l :=
  ⟨rfl, fun _ h => by cases h⟩

/-- **C3**. Per-item failure isolation in the shared per-link loop: if
scraping `u` raises, then `u` contributes no record, the records of all
other links are unchanged, and the run still completes with an emitted
array (Thai `main` shown; the EN loop is the same `collectPeople`). -/
theorem claim_C3 (scrape : Chars → PyResult Chars) (l1 l2 : List Chars)
    (u : Chars) (h : scrape u = .exn) :
    collectPeople scrape (l1 ++ u :: l2) =
      collectPeople scrape l1 ++ collectPeople scrape l2 ∧
    mainThai (.ok (l1 ++ u :: l2)) scrape =
      .ok (collectPeople scrape l1 ++ collectPeople scrape l2) := by
  have hcat : collectPeople scrape (l1 ++ u :: l2) =
      collectPeople scrape l1 ++ collectPeople scrape l2 := by
    unfold collectPeople
    rw [List.filterMap_append, List.filterMap_cons, h]
  exact ⟨hcat, by rw [mainThai, hcat]⟩

/-- Witness instantiating `claim_C3` at a concrete failing link. -/
theorem claim_C3_witness :
    collectPeople (fun v => if v = "bad".data then .exn else .ok v)
        (["a".data] ++ "bad".data :: ["b".data]) = ["a".data, "b".data] := by
  have h := claim_C3 (fun v => if v = "bad".data then .exn else .ok v)
    ["a".data] ["b".data] "bad".data (by decide)
  rw [h.1]
  decide

/-- Rounds executed by `_click_texty_buttons`: each round looks for a button
(`clicked i` tells whether round `i` clicked one) and the loop breaks on the
first round that clicks nothing. -/
def clickGo (clicked : Nat → Bool) (i fuel : Nat) : Nat :=
  match fuel with
  | 0 => 0
  | fuel + 1 => if clicked i then 1 + clickGo clicked (i + 1) fuel else 1

/-- `_click_texty_buttons(..., max_round)` round count. -/
def clickTextyRounds (clicked : Nat → Bool) (maxRound : Nat) : Nat :=
  clickGo clicked 0 maxRound

/-- Rounds of the largest-container scrolling loop in
`_load_everything_in_view`: `prev` starts at `-1`, each round reads
`scrollHeight` (`cur i`) and the loop breaks when it equals `prev`. -/
def containerGo (cur : Nat → Int) (prev : Int) (i fuel : Nat) : Nat :=
  match fuel with
  | 0 => 0
  | fuel + 1 => if cur i = prev then 1 else 1 + containerGo cur (cur i) (i + 1) fuel

/-- The container loop runs `for _ in range(40)` with `prev = -1`. -/
def containerRounds (cur : Nat → Int) : Nat :=
  containerGo cur (-1) 0 40

/-- Rounds of `_scroll_window_to_bottom(..., max_pass)`: `last` starts at
`0`, each round reads `document.body.scrollHeight` (`height i`) and the loop
breaks when it equals `last`. -/
def swbGo (height : Nat → Int) (last : Int) (i fuel : Nat) : Nat :=
  match fuel with
  | 0 => 0
  | fuel + 1 => if height i = last then 1 else 1 + swbGo height (height i) (i + 1) fuel

/-- `_scroll_window_to_bottom(driver, max_pass)` round count. -/
def scrollWindowRounds (height : Nat → Int) (maxPass : Nat) : Nat :=
  swbGo height 0 0 maxPass

theorem clickGo_le (clicked : Nat → Bool) (i fuel : Nat) :
    clickGo clicked i fuel ≤ fuel := by
  induction fuel generalizing i with
  | zero => exact Nat.le_refl 0
  | succ n ih =>
    unfold clickGo
    by_cases h : clicked i = true
    · rw [if_pos h]
      have := ih (i + 1)
      omega
    · rw [if_neg h]
      omega

theorem containerGo_le (cur : Nat → Int) (prev : Int) (i fuel : Nat) :
    containerGo cur prev i fuel ≤ fuel := by
  induction fuel generalizing prev i with
  | zero => exact Nat.le_refl 0
  | succ n ih =>
    unfold containerGo
    by_cases h : cur i = prev
    · rw [if_pos h]
      omega
    · rw [if_neg h]
      have := ih (cur i) (i + 1)
      omega

theorem swbGo_le (height : Nat → Int) (last : Int) (i fuel : Nat) :
    swbGo height last i fuel ≤ fuel := by
  induction fuel generalizing last i with
  | zero => exact Nat.le_refl 0
  | succ n ih =>
    unfold swbGo
    by_cases h : height i = last
    · rw [if_pos h]
      omega
    · rw [if_neg h]
      have := ih (height i) (i + 1)
      omega

theorem clickGo_all_true (i fuel : Nat) :
    clickGo (fun _ => true) i fuel = fuel := by
  induction fuel generalizing i with
  | zero => rfl
  | succ n ih =>
    unfold clickGo
    rw [if_pos rfl, ih (i + 1)]
    omega

theorem swbGo_growing (last : Int) (i fuel : Nat) (h : last < (i : Int) + 1) :
    swbGo (fun j => (j : Int) + 1) last i fuel = fuel := by
  induction fuel generalizing last i with
  | zero => rfl
  | succ n ih =>
    unfold swbGo
    rw [if_neg (by omega), ih ((i : Int) + 1) (i + 1) (by push_cast; omega)]
    omega

theorem containerGo_growing (prev : Int) (i fuel : Nat) (h : prev < (i : Int)) :
    containerGo (fun j => (j : Int)) prev i fuel = fuel := by
  induction fuel generalizing prev i with
  | zero => rfl
  | succ n ih =>
    unfold containerGo
    rw [if_neg (by omega), ih (i : Int) (i + 1) (by push_cast; omega)]
    omega

/-- **C6**. Each stabilization loop terminates within its bounded round
count on every page behavior, and a page that never stops growing simply
exhausts the bound (80 click rounds, 40 container-scroll rounds, 20
window-scroll passes as called from `_load_everything_in_view`) without
any error outcome. -/
theorem claim_C6 :
    (∀ (clicked : Nat → Bool) (maxRound : Nat),
        clickTextyRounds clicked maxRound ≤ maxRound) ∧
    (∀ cur : Nat → Int, containerRounds cur ≤ 40) ∧
    (∀ (height : Nat → Int) (maxPass : Nat),
        scrollWindowRounds height maxPass ≤ maxPass) ∧
    clickTextyRounds (fun _ => true) 80 = 80 ∧
    containerRounds (fun j => (j : Int)) = 40 ∧
    scrollWindowRounds (fun j => (j : Int) + 1) 20 = 20 :=
  ⟨fun clicked maxRound => clickGo_le clicked 0 maxRound,
   fun cur => containerGo_le cur (-1) 0 40,
   fun height maxPass => swbGo_le height 0 0 maxPass,
   clickGo_all_true 0 80,
   containerGo_growing (-1) 0 40 (by norm_num),
   swbGo_growing 0 0 20 (by norm_num)⟩

/-- The line-break characters of Python `str.splitlines`. -/
def isLineBreak (c : Char) : Bool :=
  c = '\n' ∨ c = '\r' ∨ c = '\x0b' ∨ c = '\x0c' ∨ c = '\x1c' ∨ c = '\x1d' ∨
  c = '\x1e' ∨ c = '\x85' ∨ c = ' ' ∨ c = ' '

/-- Python `text.splitlines()` (a `\r\n` pair counts as one break; a
trailing break opens no new line). -/
def pySplitlines : Chars → List Chars
  | [] => []
  | '\r' :: '\n' :: rest => [] :: pySplitlines rest
  | c :: rest =>
    if isLineBreak c then [] :: pySplitlines rest
    else match pySplitlines rest with
      | [] => [[c]]
      | l :: ls => (c :: l) :: ls

/-- Python `"\n".join(lines)`. -/
def joinLines : List Chars → Chars
  | [] => []
  | [l] => l
  | l :: ls => l ++ '\n' :: joinLines ls

/-- `EXCLUDE_LINES` of the Thai variant. -/
def EXCLUDE_LINES : List Chars :=
  ["เกี่ยวกับเรา".data, "ติดต่อเรา".data, "เข้าสู่ระบบ".data, "ข่าวสาร".data,
   "สิ่งอำนวยความสะดวก".data, "123 ถ.มิตรภาพ".data, "College of Computing".data,
   "ค้นหา".data, "A-".data, "A+".data, "|".data]

/-- `any(ex in l for ex in EXCLUDE_LINES)`. -/
def lineExcluded (l : Chars) : Bool := EXCLUDE_LINES.any (fun ex => substrB ex l)

/-- `[l.strip() for l in text.splitlines() if l.strip()]`. -/
def cleanLines (text : Chars) : List Chars :=
  ((pySplitlines text).map pyStrip).filter (fun l => !decide (l = []))

/-- `clean_text` of the Thai variant. -/
def cleanText (text : Chars) : Chars :=
  joinLines ((cleanLines text).filter (fun l => !lineExcluded l))

theorem spl_nil : pySplitlines [] = [] := rfl

theorem spl_crlf (rest : Chars) :
    pySplitlines ('\r' :: '\n' :: rest) = [] :: pySplitlines rest := rfl

theorem spl_cons (c : Char) (rest : Chars)
    (hne : ∀ r, c = '\r' → rest = '\n' :: r → False) :
    pySplitlines (c :: rest) =
      if isLineBreak c then [] :: pySplitlines rest
      else match pySplitlines rest with
        | [] => [[c]]
        | l :: ls => (c :: l) :: ls := by
  rw [pySplitlines.eq_def]
  split
  · rename_i heq
    cases heq
  · rename_i r heq
    injection heq with h1 h2
    exact (hne r h1 h2).elim
  · rename_i c2 rest2 hx heq
    injection heq with h1 h2
    subst h1
    subst h2
    rfl

theorem pySplitlines_breakFree (cs : Chars) :
    ∀ l ∈ pySplitlines cs, ∀ c ∈ l, isLineBreak c = false := by
  induction cs using pySplitlines.induct with
  | case1 =>
    intro l hl
    rw [spl_nil] at hl
    cases hl
  | case2 rest ih =>
    intro l hl
    rw [spl_crlf] at hl
    rcases List.mem_cons.mp hl with h | h
    · subst h; intro c hc; cases hc
    · exact ih l h
  | case3 c rest hne hb ih =>
    intro l hl
    rw [spl_cons c rest hne, if_pos hb] at hl
    rcases List.mem_cons.mp hl with h | h
    · subst h; intro d hd; cases hd
    · exact ih l h
  | case4 c rest hne hb hrec ih =>
    intro l hl
    rw [spl_cons c rest hne, if_neg hb, hrec] at hl
    rcases List.mem_cons.mp hl with h | h
    · subst h
      intro d hd
      rcases List.mem_cons.mp hd with h' | h'
      · subst h'
        simpa using hb
      · cases h'
    · cases h
  | case5 c rest hne hb l0 ls hrec ih =>
    intro l hl
    rw [spl_cons c rest hne, if_neg hb, hrec] at hl
    rcases List.mem_cons.mp hl with h | h
    · subst h
      intro d hd
      rcases List.mem_cons.mp hd with h' | h'
      · subst h'
        simpa using hb
      · exact ih l0 (by rw [hrec]; exact List.mem_cons_self l0 ls) d h'
    · exact ih l (by rw [hrec]; exact List.mem_cons_of_mem l0 h)

theorem pySplitlines_single (l : Chars) (hne : l ≠ [])
    (hbf : ∀ c ∈ l, isLineBreak c = false) : pySplitlines l = [l] := by
  induction l with
  | nil => exact absurd rfl hne
  | cons c rest ih =>
    have hc : isLineBreak c = false := hbf c (List.mem_cons_self c rest)
    have hcr : c ≠ '\r' := by
      intro h
      subst h
      simp [isLineBreak] at hc
    rw [spl_cons c rest (fun r h _ => absurd h hcr), if_neg (by simp [hc])]
    cases rest with
    | nil => rfl
    | cons d rest' =>
      rw [ih (by simp) (fun x hx => hbf x (List.mem_cons_of_mem c hx))]

theorem pySplitlines_append (l t : Chars) (hbf : ∀ c ∈ l, isLineBreak c = false) :
    pySplitlines (l ++ '\n' :: t) = l :: pySplitlines t := by
  induction l with
  | nil =>
    rw [List.nil_append,
      spl_cons '\n' t (fun r h _ => absurd h (by decide)),
      if_pos (by decide)]
  | cons c rest ih =>
    have hc : isLineBreak c = false := hbf c (List.mem_cons_self c rest)
    have hcr : c ≠ '\r' := by
      intro h
      subst h
      simp [isLineBreak] at hc
    rw [List.cons_append,
      spl_cons c (rest ++ '\n' :: t) (fun r h _ => absurd h hcr),
      if_neg (by simp [hc]),
      ih (fun x hx => hbf x (List.mem_cons_of_mem c hx))]

theorem joinLines_splitlines (L : List Chars) (hne : ∀ l ∈ L, l ≠ [])
    (hbf : ∀ l ∈ L, ∀ c ∈ l, isLineBreak c = false) :
    pySplitlines (joinLines L) = L := by
  induction L with
  | nil => rfl
  | cons l ls ih =>
    cases ls with
    | nil =>
      rw [joinLines]
      exact pySplitlines_single l (hne l (by simp)) (hbf l (by simp))
    | cons l2 ls2 =>
      rw [joinLines, pySplitlines_append l (joinLines (l2 :: ls2)) (hbf l (by simp))]
      rw [ih (fun x hx => hne x (List.mem_cons_of_mem l hx))
        (fun x hx => hbf x (List.mem_cons_of_mem l hx))]
      exact fun h => List.noConfusion h



theorem cleanText_lines (text : Chars) :
    pySplitlines (cleanText text) =
      (cleanLines text).filter (fun l => !lineExcluded l) := by
  unfold cleanText
  apply joinLines_splitlines
  · intro l hl
    have h1 := (List.mem_filter.mp hl).1
    unfold cleanLines at h1
    have h2 := (List.mem_filter.mp h1).2
    simpa using h2
  · intro l hl c hc
    have h1 := (List.mem_filter.mp hl).1
    unfold cleanLines at h1
    have h2 := (List.mem_filter.mp h1).1
    rcases List.mem_map.mp h2 with ⟨l0, hl0, hstrip⟩
    subst hstrip
    exact pySplitlines_breakFree text l0 hl0 c (pyStrip_sub l0 c hc)

/-- **C10**. Every line of `clean_text`'s output (the Thai variant's
info/education cleaner) contains none of the `EXCLUDE_LINES` substrings:
a line is dropped whenever any exclusion string — including `|`, `A-` and
`A+` — occurs anywhere in it, even inside legitimate content, as the
concrete conjunct shows. -/
theorem claim_C10 :
    (∀ (text : Chars), ∀ l ∈ pySplitlines (cleanText text),
        ∀ ex ∈ EXCLUDE_LINES, substrB ex l = false) ∧
    cleanText "Go | x\nA-team\nA+ grade\nok".data = "ok".data := by
  constructor
  · intro text l hl ex hex
    rw [cleanText_lines] at hl
    have h2 := (List.mem_filter.mp hl).2
    have h3 : lineExcluded l = false := by simpa using h2
    unfold lineExcluded at h3
    rw [List.any_eq_false] at h3
    simpa using h3 ex hex
  · decide

/-- Witness instantiating `claim_C10` at a concrete cleaned page text. -/
theorem claim_C10_witness :
    substrB "|".data "ok".data = false :=
  claim_C10.1 "Go | x\nok".data "ok".data (by decide) "|".data (by decide)

/-- Auxiliary scanner for `re.sub(r"\s+", " ", s)`: the flag records
whether the previous character was whitespace (already emitted as the run's
single space). -/
def collapseGo : Bool → Chars → Chars
  | _, [] => []
  | prevWS, c :: rest =>
    if pyWhitespace c then
      if prevWS then collapseGo true rest else ' ' :: collapseGo true rest
    else c :: collapseGo false rest

/-- `re.sub(r"\s+", " ", s)`: collapse every whitespace run to one space. -/
def collapseWS (s : Chars) : Chars := collapseGo false s

/-- `_clean_text(s) = re.sub(r"\s+", " ", s).strip()` (both variants). -/
def cleanTextWS (s : Chars) : Chars := pyStrip (collapseWS s)

/-- `EDU_KEYWORDS` (both variants). -/
def EDU_KEYWORDS : List Chars :=
  ["การศึกษา".data, "วุฒิ".data, "วุฒิการศึกษา".data, "ประวัติการศึกษา".data,
   "ปริญญา".data, "ระดับ".data, "มหาวิทยาลัย".data, "University".data,
   "Bachelor".data, "Master".data, "Ph.D".data, "PhD".data, "Degree".data]

/-- `_has_edu_keyword`: nonempty and some keyword occurs case-insensitively. -/
def hasEduKeyword (t : Chars) : Bool :=
  !decide (t = []) && EDU_KEYWORDS.any (fun k => substrB (lowerC k) (lowerC t))

/-- The inline regex `(Bachelor|Master|Ph\.?D|มหาวิทยาลัย|ปริญญา|วุฒิ)` with
`re.I`: an alternative occurs somewhere, case-insensitively (`Ph\.?D` is
`PhD` or `Ph.D`). -/
def eduAltMatch (t : Chars) : Bool :=
  substrB (lowerC "Bachelor".data) (lowerC t) ||
  substrB (lowerC "Master".data) (lowerC t) ||
  substrB (lowerC "PhD".data) (lowerC t) ||
  substrB (lowerC "Ph.D".data) (lowerC t) ||
  substrB "มหาวิทยาลัย".data (lowerC t) ||
  substrB "ปริญญา".data (lowerC t) ||
  substrB "วุฒิ".data (lowerC t)

/-- One `tr` of an education table: whether it contains a `th`, and the
texts of its `td` cells (line breaks already turned into `\n` by the
`br.replace_with("\n")` pass). -/
structure TRow where
  hasTh : Bool
  cells : List Chars
deriving Repr, DecidableEq

/-- One `table`: the rows of `tb.select("tbody tr")` and of
`tb.select("tr")`. -/
structure TTable where
  tbodyRows : List TRow
  rows : List TRow
deriving Repr, DecidableEq

/-- The education tab as seen by the EN `parse_education`: its tables, the
`ul li, ol li` item texts, the `p, div, span` block texts (with `br` turned
into `\n`), and the whole-tab text `soup.get_text(" ", strip=True)`. -/
structure EduSoup where
  tables : List TTable
  listItems : List Chars
  blockTexts : List Chars
  fullText : Chars
deriving Repr, DecidableEq

/-- One table row's line: `" | ".join([c for c in cols if c])` over the
cleaned cell texts. -/
def rowLine (r : TRow) : Chars :=
  joinSep " | ".data ((r.cells.map cleanTextWS).filter (fun c => !decide (c = [])))

/-- The kept lines of one table: `tbody tr` rows if any, else all `tr`
rows; header rows (`tr.find("th")`) skipped; empty lines dropped. -/
def tableRows (t : TTable) : List Chars :=
  (((if t.tbodyRows = [] then t.rows else t.tbodyRows).filter
      (fun r => !r.hasTh)).map rowLine).filter (fun l => !decide (l = []))

/-- The first table whose kept rows are nonempty, as joined text. -/
def firstTableText : List TTable → Option Chars
  | [] => none
  | t :: ts =>
    if tableRows t = [] then firstTableText ts
    else some (joinLines (tableRows t))

/-- The `ul li, ol li` fallback: cleaned nonempty item texts. -/
def listItemLines (items : List Chars) : List Chars :=
  (items.map cleanTextWS).filter (fun i => !decide (i = []))

/-- The nonempty stripped lines of one block's text (`t.split("\n")`). -/
def blockLines (t : Chars) : List Chars :=
  ((t.splitOn '\n').map pyStrip).filter (fun s => !decide (s = []))

/-- The keyword-matching cleaned lines collected from all blocks. -/
def eduBlocks (blockTexts : List Chars) : List Chars :=
  (blockTexts.flatMap blockLines).filterMap
    (fun ln => if hasEduKeyword ln || eduAltMatch ln then some (cleanTextWS ln)
               else none)

/-- First-seen-order deduplication (the `seen` set loop). -/
def dedupFirstAux (seen : List Chars) : List Chars → List Chars
  | [] => []
  | x :: xs =>
    if x ∈ seen then dedupFirstAux seen xs
    else x :: dedupFirstAux (x :: seen) xs

/-- `parse_education` of the EN variant: table rows, else list items, else
keyword lines deduplicated, else the cleaned full text. -/
def parseEducationEn (soup : EduSoup) : Chars :=
  match firstTableText soup.tables with
  | some s => s
  | none =>
    if listItemLines soup.listItems ≠ [] then joinLines (listItemLines soup.listItems)
    else if eduBlocks soup.blockTexts ≠ [] then
      joinLines (dedupFirstAux [] (eduBlocks soup.blockTexts))
    else cleanTextWS soup.fullText

/-- `parse_education` of the Thai variant applied to the education tab's
text `tab_soup.get_text(separator="\n")`: just `clean_text`, no cascade. -/
def parseEducationTh (tabText : Chars) : Chars := cleanText tabText



/-- **C7** (amended). The EN variant's `parse_education` follows the
claimed cascade — first table with data rows as pipe-joined lines, else
list items, else keyword-matching block lines deduplicated first-seen,
else the cleaned full text. The Thai variant's `parse_education` is NOT
the cascade: it always returns `clean_text` of the whole tab text, for
every page (refuting the claim's "for every profile page", which cites
both files; see the counterexample). -/
theorem claim_C7 :
    (∀ (soup : EduSoup) (s : Chars), firstTableText soup.tables = some s →
        parseEducationEn soup = s) ∧
    (∀ soup : EduSoup, firstTableText soup.tables = none →
        listItemLines soup.listItems ≠ [] →
        parseEducationEn soup = joinLines (listItemLines soup.listItems)) ∧
    (∀ soup : EduSoup, firstTableText soup.tables = none →
        listItemLines soup.listItems = [] →
        eduBlocks soup.blockTexts ≠ [] →
        parseEducationEn soup =
          joinLines (dedupFirstAux [] (eduBlocks soup.blockTexts))) ∧
    (∀ soup : EduSoup, firstTableText soup.tables = none →
        listItemLines soup.listItems = [] →
        eduBlocks soup.blockTexts = [] →
        parseEducationEn soup = cleanTextWS soup.fullText) ∧
    (∀ tabText : Chars, parseEducationTh tabText = cleanText tabText) := by
  refine ⟨?_, ?_, ?_, ?_, fun _ => rfl⟩
  · intro soup s h
    unfold parseEducationEn
    rw [h]
  · intro soup h hli
    unfold parseEducationEn
    rw [h]
    simp only [ne_eq]
    rw [if_pos hli]
  · intro soup h hli hb
    unfold parseEducationEn
    rw [h]
    simp only [ne_eq]
    rw [if_neg (by simpa using hli), if_pos hb]
  · intro soup h hli hb
    unfold parseEducationEn
    rw [h]
    simp only [ne_eq]
    rw [if_neg (by simpa using hli), if_neg (by simpa using hb)]

/-- **C7**, counterexample to the unamended claim: on a tab whose education
section is a two-row table, the cascade (EN) yields pipe-joined rows, but
the Thai `parse_education` on the same tab's text yields the newline
rendering of the cell texts — not the cascade's output. -/
theorem claim_C7_counterexample :
    parseEducationEn
        ⟨[⟨[⟨false, ["a".data, "b".data]⟩, ⟨false, ["c".data, "d".data]⟩], []⟩],
         [], [], "a b c d".data⟩ = "a | b\nc | d".data ∧
    parseEducationTh "a\nb\nc\nd".data = "a\nb\nc\nd".data ∧
    parseEducationTh "a\nb\nc\nd".data ≠ "a | b\nc | d".data := by
  exact ⟨by decide, by decide, by decide⟩

/-- Witness instantiating `claim_C7` on a list-items-only education tab. -/
theorem claim_C7_witness :
    parseEducationEn ⟨[], ["B.Sc. CS".data, "M.Sc. CS".data], [], "x".data⟩ =
      joinLines (listItemLines
        (EduSoup.mk [] ["B.Sc. CS".data, "M.Sc. CS".data] [] "x".data).listItems) :=
  claim_C7.2.1 ⟨[], ["B.Sc. CS".data, "M.Sc. CS".data], [], "x".data⟩
    (by decide) (by decide)

/-- `WebDriverWait(driver, timeout).until(cond)`: the condition is polled at
ticks and the wait raises `TimeoutException` if it never holds within the
budget. -/
def webDriverWait (cond : Nat → Bool) (budget : Nat) : PyResult Unit :=
  if (List.range budget).any cond then .ok () else .exn

/-- A profile page as `scrape_profile` observes it: the ready-state poll,
the education-keyword poll, and the records parsed from the settled or the
partial DOM. -/
structure ProfilePage where
  ready : Nat → Bool
  hasKw : Nat → Bool
  parseFull : Chars
  parsePartial : Chars

/-- Thai `scrape_profile`: `wait_ready(driver)` (30 s) is NOT wrapped in
any `try`, so a ready-state timeout propagates; the inner 10 s keyword wait
is wrapped in `try ... except: pass`, so its timeout proceeds best-effort
with the partial DOM. -/
def scrapeProfileTh (p : ProfilePage) : PyResult Chars :=
  match webDriverWait p.ready 30 with
  | .exn => .exn
  | .ok _ =>
    match webDriverWait p.hasKw 10 with
    | .ok _ => .ok p.parseFull
    | .exn => .ok p.parsePartial

/-- EN `scrape_profile`: `wait_ready(driver)` is likewise unguarded and
there is no inner wait. -/
def scrapeProfileEn (p : ProfilePage) : PyResult Chars :=
  match webDriverWait p.ready 30 with
  | .exn => .exn
  | .ok _ => .ok p.parseFull

/-- **C9** (amended). A ready-state timeout (`wait_ready`) is NOT recovered
inside `scrape_profile` of either variant: the exception propagates, so
that page yields no record at all (it is dropped by `main`'s per-item
handler; the run continues). Best-effort extraction on a partial DOM
happens only for the Thai variant's inner education-keyword wait, whose
timeout is swallowed; a successful keyword wait parses the settled DOM.
No wait is retried: each is a single bounded poll. -/
theorem claim_C9 :
    (∀ p : ProfilePage, (∀ n, n < 30 → p.ready n = false) →
        scrapeProfileTh p = .exn ∧ scrapeProfileEn p = .exn) ∧
    (∀ p : ProfilePage, webDriverWait p.ready 30 = .ok () →
        webDriverWait p.hasKw 10 = .exn →
        scrapeProfileTh p = .ok p.parsePartial) ∧
    (∀ p : ProfilePage, webDriverWait p.ready 30 = .ok () →
        webDriverWait p.hasKw 10 = .ok () →
        scrapeProfileTh p = .ok p.parseFull) := by
  refine ⟨?_, ?_, ?_⟩
  · intro p h
    have hw : webDriverWait p.ready 30 = .exn := by
      unfold webDriverWait
      rw [if_neg]
      intro hc
      rw [List.any_eq_true] at hc
      rcases hc with ⟨n, hn, hcn⟩
      rw [h n (List.mem_range.mp hn)] at hcn
      cases hcn
    unfold scrapeProfileTh scrapeProfileEn
    rw [hw]
    exact ⟨rfl, rfl⟩
  · intro p h1 h2
    unfold scrapeProfileTh
    rw [h1, h2]
  · intro p h1 h2
    unfold scrapeProfileTh
    rw [h1, h2]

/-- **C9**, counterexample to the unamended claim: a page that never
reaches ready state makes `scrape_profile` raise, and the page contributes
no record — not even a partial one — to the output. -/
theorem claim_C9_counterexample :
    scrapeProfileTh ⟨fun _ => false, fun _ => true, "full".data, "part".data⟩ =
      .exn ∧
    collectPeople
      (fun _ => scrapeProfileTh
        ⟨fun _ => false, fun _ => true, "full".data, "part".data⟩)
      ["u".data] = [] :=
  ⟨rfl, rfl⟩

/-- Witness instantiating `claim_C9`: ready succeeds, the keyword wait
times out, and the partial-DOM record is still produced. -/
theorem claim_C9_witness :
    scrapeProfileTh ⟨fun _ => true, fun _ => false, "full".data, "part".data⟩ =
      .ok "part".data :=
  claim_C9.2.1 ⟨fun _ => true, fun _ => false, "full".data, "part".data⟩
    (by decide) (by decide)

/-- **C8**. The two variants do NOT compute the same raw-markup fallback
candidates: the Thai href pattern has a typo — its character class is
closed one character early, so after the slash it matches exactly one
non-quote character followed by 1 to 200 literal right-bracket characters.
Hence the Thai fallback misses every ordinary href value (first two
conjuncts refute the claimed EN/Thai agreement on a plain profile href)
and only fires on bracket-shaped values (third conjunct); the EN pattern
behaves as the claim describes. -/
theorem claim_C8 :
    fallbackExtractEn "<a href=\x22/somchai.prof\x22>".data =
      ["https://computing.kku.ac.th/somchai.prof".data] ∧
    fallbackExtractTh "<a href=\x22/somchai.prof\x22>".data = [] ∧
    fallbackExtractTh "<a href=\x22/a]\x22>".data =
      ["https://computing.kku.ac.th/a]".data] := by
  exact ⟨by decide, by decide, by decide⟩

end KKUScrape
